import Mathlib

set_option maxRecDepth 8000

/-!
Verification of the ScribbleToDoc batch-processing pipeline.

The embedded code is the batch-orchestration core of the application
(`startBatchProcess` and its helpers `tryAppendText`, `processItem`,
`runWorker`), the pending-item selection, and the resolution step of the
transcription service (`processImageOCR`).

Modelling conventions:
* The JavaScript `Map` used for `completedTexts` is observed only through
  `set`/`has`/`get`/`delete`, so it is modelled as a key-sorted association
  list with unique keys (`setKey`, `lookupText`, `eraseKey`): an
  observationally equivalent representation of a finite map.
* The `while (completedTexts.has(nextIndexToAppend))` loop of `tryAppendText`
  terminates because every iteration deletes one present key, so the number of
  iterations is bounded by the size of the map at entry; `drainLoop` runs the
  loop body with exactly that bound as structural fuel, which yields the same
  final state (once the key lookup fails the loop body is never entered again,
  whether fuel remains or not).
* The single-threaded event loop suspends workers only at `await`-points.
  A batch run is therefore modelled as a small-step system (`stepBatch`)
  driven by an arbitrary schedule: a `claim` step is the synchronous prefix of
  a worker iteration (queue check, cursor increment, status update), a
  `complete` step is the resumption after `processImageOCR` settles (item
  update, publication to the reassembler, loop-around), and a
  `progressUpdate` step is an `onProgress` callback firing.  Every
  interleaving the event loop can produce is a schedule of this system.
* The item `progress` field is a JavaScript number written but never computed
  with; it is modelled as a rational.
* `claims` is a ghost field recording, in order, the queue positions claimed
  by workers; it changes nothing observable and exists only to state claims
  about the claiming discipline.
-/

namespace ScribbleToDoc

/-- The fixed placeholder published for a failed item
(`"[Error: Failed to process this page]"` in `processItem`). -/
def PLACEHOLDER_TEXT : String := "[Error: Failed to process this page]"

/-- `CONCURRENCY_LIMIT = 3` from `startBatchProcess`. -/
def CONCURRENCY_LIMIT : Nat := 3

/-- Lookup in the `completedTexts` map (`completedTexts.get(i)` /
`completedTexts.has(i)`). -/
def lookupText : List (Nat × String) → Nat → Option String
  | [], _ => none
  | (k, v) :: rest, i => if k = i then some v else lookupText rest i

/-- Deletion from the `completedTexts` map (`completedTexts.delete(i)`). -/
def eraseKey : List (Nat × String) → Nat → List (Nat × String)
  | [], _ => []
  | (k, v) :: rest, i => if k = i then rest else (k, v) :: eraseKey rest i

/-- Insertion into the `completedTexts` map (`completedTexts.set(i, v)`),
keeping the association list key-sorted with unique keys. -/
def setKey : List (Nat × String) → Nat → String → List (Nat × String)
  | [], i, v => [(i, v)]
  | (k, w) :: rest, i, v =>
    if i < k then (i, v) :: (k, w) :: rest
    else if i = k then (i, v) :: rest
    else (k, w) :: setKey rest i v

/-- One appending step of `tryAppendText`:
`if (textChunk) { newText = newText ? newText + '\n\n' + textChunk : textChunk }`. -/
def appendChunk (acc chunk : String) : String :=
  if chunk ≠ "" then (if acc ≠ "" then acc ++ "\n\n" ++ chunk else chunk) else acc

/-- The shared reassembly state of one batch run: the `completedTexts` buffer,
the `nextIndexToAppend` frontier and the `finalText` output. -/
structure RunState where
  completedTexts : List (Nat × String)
  nextIndexToAppend : Nat
  finalText : String
deriving DecidableEq, Repr

/-- Body of the `while (completedTexts.has(nextIndexToAppend))` loop of
`tryAppendText`, with structural fuel. -/
def drainLoop : Nat → RunState → RunState
  | 0, s => s
  | fuel + 1, s =>
    match lookupText s.completedTexts s.nextIndexToAppend with
    | none => s
    | some chunk =>
        drainLoop fuel
          { completedTexts := eraseKey s.completedTexts s.nextIndexToAppend,
            nextIndexToAppend := s.nextIndexToAppend + 1,
            finalText := appendChunk s.finalText chunk }

/-- `tryAppendText` from `startBatchProcess`: flush every contiguous run of
buffered chunks starting at the frontier into the output. -/
def tryAppendText (s : RunState) : RunState :=
  drainLoop s.completedTexts.length s

/-- Publication of one settled item to the reassembler:
`completedTexts.set(index, text)` followed by the `finally`-step
`tryAppendText()` of `processItem`. -/
def publishResult (s : RunState) (idx : Nat) (text : String) : RunState :=
  tryAppendText { s with completedTexts := setKey s.completedTexts idx text }

/-- A whole sequence of publications in completion order: the reassembler's
view of a batch run whose items settle in the order `order`, item `i`
resolving to `chunk i`. -/
def runReassembler (chunk : Nat → String) (s : RunState) (order : List Nat) : RunState :=
  order.foldl (fun st idx => publishResult st idx (chunk idx)) s

/-- Modelled from the spec: the output format the spec promises — the chunks
in original index order, the empty ones skipped, joined with exactly one
blank-line (`"\n\n"`) separator between consecutive chunks. -/
def sepJoin : List String → String
  | [] => ""
  | [c] => c
  | c :: cs => c ++ "\n\n" ++ sepJoin cs

/-- Item status (`BatchImage.status`). -/
inductive Status where
  | pending
  | processing
  | completed
  | error
deriving DecidableEq, Repr

/-- One batch item (`BatchImage`), restricted to the fields the pipeline
reads or writes: status, progress and the transcription result. -/
structure Item where
  status : Status
  progress : ℚ
  processedText : Option String
deriving DecidableEq, Repr

/-- The state of one worker of the pool: at the head of its claiming loop,
suspended on a transcription call for a claimed index, or terminated. -/
inductive WorkerState where
  | idle
  | waiting (idx : Nat)
  | done
deriving DecidableEq, Repr

/-- How one `processImageOCR` call settles: resolution with a text, or
rejection. -/
inductive OCROutcome where
  | ok (text : String)
  | err
deriving DecidableEq, Repr

/-- One scheduler choice of the event loop: run the synchronous claiming
prefix of worker `w`, resume worker `w` with a settled transcription call, or
fire a progress callback of worker `w`. -/
inductive SchedStep where
  | claim (w : Nat)
  | complete (w : Nat) (r : OCROutcome)
  | progressUpdate (w : Nat) (p : ℚ)
deriving DecidableEq, Repr

/-- State of one batch run: the item list, the shared queue cursor, the
reassembly state, the worker pool, and the ghost trace of claimed queue
positions. -/
structure BatchState where
  items : List Item
  queuePointer : Nat
  reasm : RunState
  workers : List WorkerState
  claims : List Nat
deriving DecidableEq, Repr

/-- The per-index item update
`prev.map((img, i) => i === idx ? f(img) : img)`, written as a map with an
explicit running index. -/
def mapWithIndex (g : Nat → Item → Item) : Nat → List Item → List Item
  | _, [] => []
  | i, it :: rest => g i it :: mapWithIndex g (i + 1) rest

/-- `setImages(prev => prev.map((img, i) => i === idx ? { ...img, ... } : img))`. -/
def updateAt (items : List Item) (idx : Nat) (g : Item → Item) : List Item :=
  mapWithIndex (fun i it => if i = idx then g it else it) 0 items

/-- The rational number 3/10, as a literal the kernel evaluates directly;
used as a concrete partial-progress value. -/
def progressPoint3 : ℚ := ⟨3, 10, by decide, by decide⟩

/-- Default item, used only to give the index-based pending filter a total
read. -/
def defaultItem : Item := { status := .pending, progress := 0, processedText := none }

/-- The pending selection of `startBatchProcess`:
`images.map((img, index) => ({img, index})).filter(it => it.img.status !== 'completed')`,
kept as the list of original indices in order. -/
def pendingIndicesOf (items : List Item) : List Nat :=
  (List.range items.length).filter
    (fun i => decide ((items.getD i defaultItem).status ≠ Status.completed))

/-- The run state set up by `startBatchProcess` before the workers start:
cursor at 0, empty buffer, frontier at the first pending index, output as it
currently stands, and `min(CONCURRENCY_LIMIT, pendingItems.length)` workers. -/
def initBatchState (items : List Item) (finalText : String) : BatchState :=
  let pend := pendingIndicesOf items
  { items := items,
    queuePointer := 0,
    reasm :=
      { completedTexts := [],
        nextIndexToAppend := pend.headD 0,
        finalText := finalText },
    workers := List.replicate (min CONCURRENCY_LIMIT pend.length) .idle,
    claims := [] }

/-- One small step of a batch run, driven by a scheduler choice.  `pend` is
the snapshot of pending indices taken at run start. -/
def stepBatch (pend : List Nat) (s : BatchState) (c : SchedStep) : BatchState :=
  match c with
  | .claim w =>
    match s.workers[w]? with
    | some .idle =>
      if s.queuePointer < pend.length then
        let pos := s.queuePointer
        let idx := pend.getD pos 0
        { s with
          queuePointer := pos + 1,
          items := updateAt s.items idx (fun it => { it with status := .processing }),
          workers := s.workers.set w (.waiting idx),
          claims := s.claims ++ [pos] }
      else { s with workers := s.workers.set w .done }
    | _ => s
  | .complete w r =>
    match s.workers[w]? with
    | some (.waiting idx) =>
      match r with
      | .ok t =>
        { s with
          items := updateAt s.items idx
            (fun it => { it with status := .completed, processedText := some t }),
          reasm := publishResult s.reasm idx t,
          workers := s.workers.set w .idle }
      | .err =>
        { s with
          items := updateAt s.items idx (fun it => { it with status := .error }),
          reasm := publishResult s.reasm idx PLACEHOLDER_TEXT,
          workers := s.workers.set w .idle }
    | _ => s
  | .progressUpdate w p =>
    match s.workers[w]? with
    | some (.waiting idx) =>
      { s with items := updateAt s.items idx (fun it => { it with progress := p }) }
    | _ => s

/-- Run a batch under a schedule. -/
def runBatchSteps (pend : List Nat) (s : BatchState) (sched : List SchedStep) : BatchState :=
  sched.foldl (stepBatch pend) s

/-- What `startBatch()` reports to its caller. -/
inductive StartOutcome where
  | alreadyRunning
  | needsKey
  | noPending
  | ran
deriving DecidableEq, Repr

/-- The application state `startBatchProcess` touches. -/
structure AppState where
  images : List Item
  finalText : String
  isProcessing : Bool
  apiKey : String
deriving DecidableEq, Repr

/-- `startBatchProcess` end to end: the `isProcessing` re-entry guard, the
missing-API-key guard (which surfaces the key modal), the empty-pending early
return, and otherwise a full run under the given schedule. -/
def startBatchProcess (app : AppState) (sched : List SchedStep) : StartOutcome × AppState :=
  if app.isProcessing then (.alreadyRunning, app)
  else if app.apiKey = "" then (.needsKey, app)
  else
    let pend := pendingIndicesOf app.images
    if pend.length = 0 then (.noPending, app)
    else
      let final := runBatchSteps pend (initBatchState app.images app.finalText) sched
      (.ran, { app with
                 images := final.items,
                 finalText := final.reasm.finalText,
                 isProcessing := false })

/-- The resolution step of a successful `processImageOCR` call:
`return response.text || "No text detected in the image."` — `response.text`
is either absent or a string, and a falsy value (absent or empty) is replaced
by the fixed fallback. -/
def ocrResolveText (responseText : Option String) : String :=
  match responseText with
  | some t => if t ≠ "" then t else "No text detected in the image."
  | none => "No text detected in the image."

/-- Canonical buffer contents used in proofs: the key-sorted association list
holding `chunk i` for every index `i` of `pool` that lies in `S` at or beyond
the frontier `fr`. -/
def mkBuf (chunk : Nat → String) (pool S : List Nat) (fr : Nat) : List (Nat × String) :=
  (pool.filter (fun i => decide (i ∈ S) && decide (fr ≤ i))).map (fun i => (i, chunk i))

/-- The index a worker is suspended on, if any. -/
def waitingIdx : WorkerState → Option Nat
  | .waiting i => some i
  | _ => none

/-- Indices currently claimed and in flight. -/
def waitingIdxs (ws : List WorkerState) : List Nat :=
  ws.filterMap waitingIdx

/-- Positions of items currently in `processing` status. -/
def processingIndices (items : List Item) : List Nat :=
  (List.range items.length).filter
    (fun i => decide ((items.getD i defaultItem).status = Status.processing))

/-- Number of items simultaneously in `processing` status. -/
def processingCount (items : List Item) : Nat :=
  (processingIndices items).length

/-- Invariant: an item carries a result text exactly when it is `completed`. -/
def ItemTextInv (items : List Item) : Prop :=
  ∀ (i : Nat) (it : Item), items[i]? = some it →
    (it.processedText.isSome ↔ it.status = Status.completed)

/-- Invariant: every item in `processing` status is held by some suspended
worker. -/
def ProcessingWitnessInv (s : BatchState) : Prop :=
  ∀ (i : Nat) (it : Item), s.items[i]? = some it → it.status = Status.processing →
    i ∈ waitingIdxs s.workers

/-- Invariant for the claiming discipline: the ghost claim trace is exactly
the queue positions `0, …, queuePointer-1` in order, the cursor never passes
the end of the queue, and a worker only terminates once the queue is
exhausted. -/
def ClaimTraceInv (pend : List Nat) (s : BatchState) : Prop :=
  s.claims = List.range s.queuePointer ∧
  s.queuePointer ≤ pend.length ∧
  ((∃ w ∈ s.workers, w = WorkerState.done) → s.queuePointer = pend.length)

/-- The run invariant needed for the result-text property: the text/status
relation on items, that unclaimed queue positions are never `completed`, that
every suspended worker holds a previously claimed queue position, that two
distinct workers never hold the same index, and that a held item is in
`processing` status. -/
def BatchInv (pend : List Nat) (s : BatchState) : Prop :=
  ItemTextInv s.items ∧
  (∀ pos : Nat, s.queuePointer ≤ pos → pos < pend.length →
    ∀ it : Item, s.items[pend.getD pos 0]? = some it → it.status ≠ Status.completed) ∧
  (∀ (w i : Nat), s.workers[w]? = some (WorkerState.waiting i) →
    ∃ pos, pos < s.queuePointer ∧ pos < pend.length ∧ pend.getD pos 0 = i) ∧
  (∀ (w w' i i' : Nat), w ≠ w' → s.workers[w]? = some (WorkerState.waiting i) →
    s.workers[w']? = some (WorkerState.waiting i') → i ≠ i') ∧
  (∀ (w i : Nat) (it : Item), s.workers[w]? = some (WorkerState.waiting i) →
    s.items[i]? = some it → it.status = Status.processing)

/-- The net effect of claiming and settling one item: on success the item
ends `completed` with the transcribed text stored, on failure it ends
`error` with its result text untouched. -/
def settledItem (r : OCROutcome) (it : Item) : Item :=
  match r with
  | .ok t => { it with status := .completed, processedText := some t }
  | .err => { it with status := .error }

/-- A schedule that settles every remaining queue position through worker 0:
claim, settle with the outcome `res` prescribes for that index, repeat. -/
def settleSched (res : Nat → OCROutcome) (pend : List Nat) : Nat → Nat → List SchedStep
  | _, 0 => []
  | k, m + 1 =>
    .claim 0 :: .complete 0 (res (pend.getD k 0)) :: settleSched res pend (k + 1) m

/-- A schedule in which each worker in turn observes the exhausted queue and
terminates. -/
def finishSched (a b : Nat) : List SchedStep :=
  (List.range' a b).map .claim

/-! ### String and `sepJoin` lemmas -/

theorem append_ne_empty_left (a b : String) (h : a ≠ "") : a ++ b ≠ "" := by
  intro hc
  apply h
  cases a with | mk d =>
  cases b with | mk e =>
  have hde : d ++ e = [] := congrArg String.data hc
  rcases List.append_eq_nil.mp hde with ⟨h1, _⟩
  simp [h1]

theorem sepJoin_cons_cons (x y : String) (l : List String) :
    sepJoin (x :: y :: l) = x ++ "\n\n" ++ sepJoin (y :: l) := by
  simp [sepJoin]

theorem foldl_appendChunk_ne :
    ∀ (cs : List String) (a : String), a ≠ "" →
      List.foldl appendChunk a cs = sepJoin (a :: cs.filter (fun c => decide (c ≠ "")))
  | [], a, _ => by simp [sepJoin]
  | c :: cs, a, ha => by
    by_cases hc : c = ""
    · subst hc
      have hstep : appendChunk a "" = a := by simp [appendChunk]
      rw [List.foldl_cons, hstep, foldl_appendChunk_ne cs a ha,
        List.filter_cons_of_neg (by simp)]
    · have hstep : appendChunk a c = a ++ "\n\n" ++ c := by
        simp [appendChunk, hc, ha]
      have hne : a ++ "\n\n" ++ c ≠ "" :=
        append_ne_empty_left _ _ (append_ne_empty_left a "\n\n" ha)
      rw [List.foldl_cons, hstep, foldl_appendChunk_ne cs _ hne,
        List.filter_cons_of_pos (by simp [hc])]
      cases hfs : cs.filter (fun c => decide (c ≠ "")) with
      | nil => simp [sepJoin]
      | cons g gs => simp [sepJoin, String.append_assoc]

theorem foldl_appendChunk_eq_sepJoin :
    ∀ cs : List String,
      List.foldl appendChunk "" cs = sepJoin (cs.filter (fun c => decide (c ≠ "")))
  | [] => by simp [sepJoin]
  | c :: cs => by
    by_cases hc : c = ""
    · subst hc
      have hstep : appendChunk "" "" = "" := by simp [appendChunk]
      rw [List.foldl_cons, hstep, foldl_appendChunk_eq_sepJoin cs,
        List.filter_cons_of_neg (by simp)]
    · have hstep : appendChunk "" c = c := by simp [appendChunk, hc]
      rw [List.foldl_cons, hstep, foldl_appendChunk_ne cs c hc,
        List.filter_cons_of_pos (by simp [hc])]

/-! ### Association-list and `mkBuf` lemmas -/

theorem pairwise_lt_range' : ∀ (s n : Nat), List.Pairwise (· < ·) (List.range' s n)
  | _, 0 => by simp
  | s, n + 1 => by
    rw [List.range'_succ]
    exact List.Pairwise.cons (fun m hm => (List.mem_range'_1.mp hm).1)
      (pairwise_lt_range' (s + 1) n)

theorem nodup_range'_1 (s n : Nat) : (List.range' s n).Nodup :=
  (pairwise_lt_range' s n).imp Nat.ne_of_lt

theorem lookupText_mkBuf (chunk : Nat → String) :
    ∀ (pool : List Nat) (S : List Nat) (fr j : Nat),
      lookupText (mkBuf chunk pool S fr) j =
        if j ∈ pool ∧ j ∈ S ∧ fr ≤ j then some (chunk j) else none
  | [], S, fr, j => by simp [mkBuf, lookupText]
  | p :: rest, S, fr, j => by
    by_cases hcond : p ∈ S ∧ fr ≤ p
    · have : mkBuf chunk (p :: rest) S fr = (p, chunk p) :: mkBuf chunk rest S fr := by
        simp [mkBuf, List.filter_cons, hcond.1, hcond.2]
      rw [this]
      by_cases hpj : p = j
      · subst hpj
        simp [lookupText, hcond.1, hcond.2]
      · simp only [lookupText, if_neg hpj]
        rw [lookupText_mkBuf chunk rest S fr j]
        by_cases hj : j ∈ rest ∧ j ∈ S ∧ fr ≤ j
        · rw [if_pos hj, if_pos ⟨List.mem_cons_of_mem _ hj.1, hj.2⟩]
        · rw [if_neg hj, if_neg]
          intro hcon
          rcases List.mem_cons.mp hcon.1 with he | hm
          · exact hpj he.symm
          · exact hj ⟨hm, hcon.2⟩
    · have : mkBuf chunk (p :: rest) S fr = mkBuf chunk rest S fr := by
        rcases Decidable.not_and_iff_or_not.mp hcond with h | h <;>
          simp [mkBuf, List.filter_cons, h]
      rw [this, lookupText_mkBuf chunk rest S fr j]
      by_cases hj : j ∈ rest ∧ j ∈ S ∧ fr ≤ j
      · rw [if_pos hj, if_pos ⟨List.mem_cons_of_mem _ hj.1, hj.2⟩]
      · rw [if_neg hj, if_neg]
        intro hcon
        rcases List.mem_cons.mp hcon.1 with he | hm
        · exact hcond (he ▸ hcon.2)
        · exact hj ⟨hm, hcon.2⟩

theorem eraseKey_lookup_none :
    ∀ (l : List (Nat × String)) (k : Nat), lookupText l k = none → eraseKey l k = l
  | [], _, _ => rfl
  | (a, v) :: rest, k, h => by
    by_cases hak : a = k
    · simp [lookupText, hak] at h
    · simp only [lookupText, if_neg hak] at h
      simp [eraseKey, hak, eraseKey_lookup_none rest k h]

theorem mkBuf_frontier_congr (chunk : Nat → String) :
    ∀ (pool : List Nat) (S : List Nat) (fr : Nat), fr ∉ pool →
      mkBuf chunk pool S fr = mkBuf chunk pool S (fr + 1) := by
  intro pool S fr hfr
  unfold mkBuf
  congr 1
  apply List.filter_congr
  intro i hi
  have : fr ≤ i ↔ fr + 1 ≤ i := by
    constructor
    · intro h
      rcases Nat.lt_or_ge fr i with h' | h'
      · omega
      · exact absurd (Nat.le_antisymm h h' ▸ hi) hfr
    · omega
  simp [this]

theorem mkBuf_S_congr (chunk : Nat → String) :
    ∀ (pool : List Nat) (S : List Nat) (idx fr : Nat), idx ∉ pool →
      mkBuf chunk pool (idx :: S) fr = mkBuf chunk pool S fr := by
  intro pool S idx fr hidx
  unfold mkBuf
  congr 1
  apply List.filter_congr
  intro i hi
  have : i ∈ idx :: S ↔ i ∈ S := by
    rw [List.mem_cons]
    constructor
    · rintro (rfl | h)
      · exact absurd hi hidx
      · exact h
    · exact Or.inr
  simp [this]

theorem eraseKey_mkBuf (chunk : Nat → String) :
    ∀ (pool : List Nat) (S : List Nat) (fr : Nat), pool.Nodup →
      eraseKey (mkBuf chunk pool S fr) fr = mkBuf chunk pool S (fr + 1)
  | [], S, fr, _ => rfl
  | p :: rest, S, fr, hnd => by
    have hp : p ∉ rest := (List.nodup_cons.mp hnd).1
    have hrest : rest.Nodup := (List.nodup_cons.mp hnd).2
    by_cases hcond : p ∈ S ∧ fr ≤ p
    · have hmk : mkBuf chunk (p :: rest) S fr = (p, chunk p) :: mkBuf chunk rest S fr := by
        simp [mkBuf, List.filter_cons, hcond.1, hcond.2]
      rw [hmk]
      by_cases hpf : p = fr
      · subst hpf
        have hmk2 : mkBuf chunk (p :: rest) S (p + 1) = mkBuf chunk rest S (p + 1) := by
          have : ¬ (p + 1 ≤ p) := by omega
          simp [mkBuf, List.filter_cons, this]
        rw [hmk2, ← mkBuf_frontier_congr chunk rest S p hp]
        simp [eraseKey]
      · simp only [eraseKey, if_neg hpf]
        rw [eraseKey_mkBuf chunk rest S fr hrest]
        have hple : fr + 1 ≤ p := by
          rcases Nat.lt_or_ge fr p with h' | h'
          · omega
          · exact absurd (Nat.le_antisymm hcond.2 h') (fun he => hpf he.symm)
        have hmk2 : mkBuf chunk (p :: rest) S (fr + 1) =
            (p, chunk p) :: mkBuf chunk rest S (fr + 1) := by
          simp [mkBuf, List.filter_cons, hcond.1, hple]
        rw [hmk2]
    · have hmk : mkBuf chunk (p :: rest) S fr = mkBuf chunk rest S fr := by
        rcases Decidable.not_and_iff_or_not.mp hcond with h | h <;>
          simp [mkBuf, List.filter_cons, h]
      have hcond2 : ¬ (p ∈ S ∧ fr + 1 ≤ p) := by
        intro hc
        exact hcond ⟨hc.1, by omega⟩
      have hmk2 : mkBuf chunk (p :: rest) S (fr + 1) = mkBuf chunk rest S (fr + 1) := by
        rcases Decidable.not_and_iff_or_not.mp hcond2 with h | h <;>
          simp [mkBuf, List.filter_cons, h]
      rw [hmk, hmk2, eraseKey_mkBuf chunk rest S fr hrest]

theorem mkBuf_cons_pos (chunk : Nat → String) (p : Nat) (rest S : List Nat) (fr : Nat)
    (h1 : p ∈ S) (h2 : fr ≤ p) :
    mkBuf chunk (p :: rest) S fr = (p, chunk p) :: mkBuf chunk rest S fr := by
  simp only [mkBuf, List.filter_cons]
  rw [if_pos (by simp [h1, h2])]
  rfl

theorem mkBuf_cons_neg (chunk : Nat → String) (p : Nat) (rest S : List Nat) (fr : Nat)
    (h : ¬ (p ∈ S ∧ fr ≤ p)) :
    mkBuf chunk (p :: rest) S fr = mkBuf chunk rest S fr := by
  simp only [mkBuf, List.filter_cons]
  rw [if_neg (by simp only [Bool.and_eq_true, decide_eq_true_eq]; exact h)]

theorem setKey_all_gt :
    ∀ (l : List (Nat × String)) (idx : Nat) (v : String),
      (∀ kv ∈ l, idx < kv.1) → setKey l idx v = (idx, v) :: l
  | [], _, _, _ => rfl
  | (k, w) :: rest, idx, v, h => by
    have hk : idx < k := h (k, w) (List.mem_cons_self _ _)
    simp [setKey, hk]

theorem mem_mkBuf_key (chunk : Nat → String) (pool S : List Nat) (fr : Nat) :
    ∀ kv ∈ mkBuf chunk pool S fr, kv.1 ∈ pool := by
  intro kv hkv
  rcases List.mem_map.mp hkv with ⟨i, hi, rfl⟩
  exact List.mem_of_mem_filter hi

theorem setKey_mkBuf (chunk : Nat → String) :
    ∀ (pool : List Nat) (S : List Nat) (idx fr : Nat),
      List.Pairwise (· < ·) pool → idx ∈ pool → idx ∉ S → fr ≤ idx →
      setKey (mkBuf chunk pool S fr) idx (chunk idx) = mkBuf chunk pool (idx :: S) fr
  | [], _, idx, _, _, hidx, _, _ => absurd hidx (List.not_mem_nil idx)
  | p :: rest, S, idx, fr, hsorted, hidx, hS, hfr => by
    have hp : ∀ x ∈ rest, p < x := fun x hx => (List.pairwise_cons.mp hsorted).1 x hx
    have hrest : List.Pairwise (· < ·) rest := (List.pairwise_cons.mp hsorted).2
    by_cases hpe : p = idx
    · subst hpe
      have hmk : mkBuf chunk (p :: rest) S fr = mkBuf chunk rest S fr :=
        mkBuf_cons_neg chunk p rest S fr (fun hc => hS hc.1)
      have hkeys : ∀ kv ∈ mkBuf chunk rest S fr, p < kv.1 := fun kv hkv =>
        hp kv.1 (mem_mkBuf_key chunk rest S fr kv hkv)
      rw [hmk, setKey_all_gt _ p (chunk p) hkeys]
      have hpnotin : p ∉ rest := fun hin => absurd (hp p hin) (lt_irrefl p)
      have hmk2 : mkBuf chunk (p :: rest) (p :: S) fr =
          (p, chunk p) :: mkBuf chunk rest (p :: S) fr :=
        mkBuf_cons_pos chunk p rest (p :: S) fr (List.mem_cons_self _ _) hfr
      rw [hmk2, mkBuf_S_congr chunk rest S p fr hpnotin]
    · have hidxr : idx ∈ rest := (List.mem_cons.mp hidx).resolve_left (fun he => hpe he.symm)
      have hplt : p < idx := hp idx hidxr
      by_cases hcond : p ∈ S ∧ fr ≤ p
      · have hmk : mkBuf chunk (p :: rest) S fr = (p, chunk p) :: mkBuf chunk rest S fr :=
          mkBuf_cons_pos chunk p rest S fr hcond.1 hcond.2
        have hmk2 : mkBuf chunk (p :: rest) (idx :: S) fr =
            (p, chunk p) :: mkBuf chunk rest (idx :: S) fr :=
          mkBuf_cons_pos chunk p rest (idx :: S) fr (List.mem_cons_of_mem _ hcond.1) hcond.2
        rw [hmk, hmk2]
        have hlt : ¬ (idx < p) := by omega
        have hne : idx ≠ p := fun he => hpe he.symm
        simp only [setKey, if_neg hlt, if_neg hne]
        rw [setKey_mkBuf chunk rest S idx fr hrest hidxr hS hfr]
      · have hmk : mkBuf chunk (p :: rest) S fr = mkBuf chunk rest S fr :=
          mkBuf_cons_neg chunk p rest S fr hcond
        have hcond2 : ¬ (p ∈ idx :: S ∧ fr ≤ p) := by
          rintro ⟨hpin, hple⟩
          rcases List.mem_cons.mp hpin with he | hm
          · exact hpe he
          · exact hcond ⟨hm, hple⟩
        have hmk2 : mkBuf chunk (p :: rest) (idx :: S) fr = mkBuf chunk rest (idx :: S) fr :=
          mkBuf_cons_neg chunk p rest (idx :: S) fr hcond2
        rw [hmk, hmk2, setKey_mkBuf chunk rest S idx fr hrest hidxr hS hfr]

theorem drainLoop_lookup_none (fuel : Nat) (s : RunState)
    (h : lookupText s.completedTexts s.nextIndexToAppend = none) :
    drainLoop fuel s = s := by
  cases fuel with
  | zero => rfl
  | succ g => simp [drainLoop, h]

theorem tryAppendText_lookup_none (s : RunState)
    (h : lookupText s.completedTexts s.nextIndexToAppend = none) :
    tryAppendText s = s :=
  drainLoop_lookup_none _ s h

theorem drainLoop_mkBuf (chunk : Nat → String) (pool : List Nat) (hnd : pool.Nodup) :
    ∀ (m fuel : Nat) (S : List Nat) (fr : Nat) (text : String),
      m ≤ fuel → (∀ j, j < m → fr + j ∈ S) → fr + m ∉ S → (∀ i ∈ S, i ∈ pool) →
      drainLoop fuel { completedTexts := mkBuf chunk pool S fr,
                       nextIndexToAppend := fr, finalText := text } =
        { completedTexts := mkBuf chunk pool S (fr + m),
          nextIndexToAppend := fr + m,
          finalText := List.foldl appendChunk text ((List.range' fr m).map chunk) }
  | 0, fuel, S, fr, text, _, _, hstop, _ => by
    have hfr : fr ∉ S := by simpa using hstop
    have hlook : lookupText (mkBuf chunk pool S fr) fr = none := by
      rw [lookupText_mkBuf]
      simp [hfr]
    rw [drainLoop_lookup_none fuel _ hlook]
    simp
  | m + 1, fuel, S, fr, text, hfuel, hrun, hstop, hSp => by
    cases fuel with
    | zero => omega
    | succ g =>
      have hfrS : fr ∈ S := by simpa using hrun 0 (by omega)
      have hfrp : fr ∈ pool := hSp fr hfrS
      have hlook : lookupText (mkBuf chunk pool S fr) fr = some (chunk fr) := by
        rw [lookupText_mkBuf]
        simp [hfrp, hfrS]
      simp only [drainLoop, hlook]
      rw [eraseKey_mkBuf chunk pool S fr hnd]
      have ih := drainLoop_mkBuf chunk pool hnd m g S (fr + 1)
        (appendChunk text (chunk fr)) (by omega)
        (fun j hj => by
          have := hrun (j + 1) (by omega)
          simpa [Nat.add_assoc, Nat.add_comm 1 j] using this)
        (by
          have : fr + (m + 1) = fr + 1 + m := by omega
          exact this ▸ hstop) hSp
      rw [ih]
      have harith : fr + 1 + m = fr + (m + 1) := by omega
      rw [harith, List.range'_succ]
      simp

theorem length_mkBuf_ge (chunk : Nat → String) (pool S : List Nat) (fr m : Nat)
    (hrun : ∀ j, j < m → fr + j ∈ S) (hSp : ∀ i ∈ S, i ∈ pool) :
    m ≤ (mkBuf chunk pool S fr).length := by
  have hsub : List.range' fr m ⊆
      pool.filter (fun i => decide (i ∈ S) && decide (fr ≤ i)) := by
    intro i hi
    rcases List.mem_range'_1.mp hi with ⟨hle, hlt⟩
    have hiS : i ∈ S := by
      have := hrun (i - fr) (by omega)
      have he : fr + (i - fr) = i := by omega
      rwa [he] at this
    refine List.mem_filter.mpr ⟨hSp i hiS, ?_⟩
    simp [hiS, hle]
  have hlen := (List.subperm_of_subset (nodup_range'_1 fr m) hsub).length_le
  rw [List.length_range'] at hlen
  calc m ≤ (pool.filter (fun i => decide (i ∈ S) && decide (fr ≤ i))).length := hlen
    _ = (mkBuf chunk pool S fr).length := (List.length_map _ _).symm

theorem runReassembler_drains (chunk : Nat → String) (f n : Nat) :
    ∀ (order : List Nat) (S : List Nat) (k : Nat) (text : String),
      order.Nodup →
      (∀ i ∈ order, i ∈ List.range' f n ∧ i ∉ S ∧ f + k ≤ i) →
      (∀ i ∈ S, i ∈ List.range' f n) →
      f + k ∉ S →
      k ≤ n →
      (∀ i ∈ List.range' f n, f + k ≤ i → i ∈ S ∨ i ∈ order) →
      runReassembler chunk
          { completedTexts := mkBuf chunk (List.range' f n) S (f + k),
            nextIndexToAppend := f + k, finalText := text } order =
        { completedTexts := [],
          nextIndexToAppend := f + n,
          finalText := List.foldl appendChunk text ((List.range' (f + k) (n - k)).map chunk) }
  | [], S, k, text, _, _, hSp, hfk, hk, hcov => by
    have hkn : k = n := by
      by_contra hne
      have hklt : k < n := by omega
      have hin : f + k ∈ List.range' f n := List.mem_range'_1.mpr ⟨by omega, by omega⟩
      rcases hcov (f + k) hin (le_refl _) with h | h
      · exact hfk h
      · exact absurd h (List.not_mem_nil _)
    have hempty : mkBuf chunk (List.range' f n) S (f + n) = [] := by
      unfold mkBuf
      have : (List.range' f n).filter (fun i => decide (i ∈ S) && decide (f + n ≤ i)) = [] := by
        apply List.filter_eq_nil_iff.mpr
        intro i hi
        have := (List.mem_range'_1.mp hi).2
        simp only [Bool.and_eq_true, decide_eq_true_eq, not_and]
        intro _
        omega
      rw [this, List.map_nil]
    rw [hkn, hempty]
    simp [runReassembler]
  | idx :: rest, S, k, text, hnd, ho, hSp, hfk, hk, hcov => by
    have hndr : rest.Nodup := (List.nodup_cons.mp hnd).2
    have hidxr : idx ∉ rest := (List.nodup_cons.mp hnd).1
    rcases ho idx (List.mem_cons_self _ _) with ⟨hidxp, hidxS, hidxge⟩
    have hpw := pairwise_lt_range' f n
    have hndp := nodup_range'_1 f n
    have hset := setKey_mkBuf chunk (List.range' f n) S idx (f + k) hpw hidxp hidxS hidxge
    by_cases hcase : idx = f + k
    · -- the new chunk lands on the frontier: a run of chunks flushes
      subst hcase
      have hkltn : k < n := by
        have := (List.mem_range'_1.mp hidxp).2
        omega
      -- locate the first gap above the frontier in the enlarged buffer
      have hPex : ∃ j, f + k + j ∉ ((f + k) :: S) := by
        refine ⟨n - k, ?_⟩
        intro hin
        rcases List.mem_cons.mp hin with he | hm
        · omega
        · have := (List.mem_range'_1.mp (hSp _ hm)).2
          omega
      set m := Nat.find hPex with hmdef
      have hm : f + k + m ∉ ((f + k) :: S) := Nat.find_spec hPex
      have hmin : ∀ j, j < m → f + k + j ∈ ((f + k) :: S) := fun j hj =>
        Decidable.not_not.mp (Nat.find_min hPex hj)
      have hmpos : 0 < m := by
        rcases Nat.eq_zero_or_pos m with h0 | h
        · exfalso
          apply hm
          rw [h0]
          simp
        · exact h
      have hmle : m ≤ n - k := by
        apply Nat.find_min' hPex
        intro hin
        rcases List.mem_cons.mp hin with he | hmem
        · omega
        · have := (List.mem_range'_1.mp (hSp _ hmem)).2
          omega
      have hSp' : ∀ i ∈ ((f + k) :: S), i ∈ List.range' f n := by
        intro i hi
        rcases List.mem_cons.mp hi with he | hmem
        · exact he ▸ hidxp
        · exact hSp i hmem
      have hfuel := length_mkBuf_ge chunk (List.range' f n) ((f + k) :: S) (f + k) m
        hmin hSp'
      have hdrain := drainLoop_mkBuf chunk (List.range' f n) hndp m
        ((mkBuf chunk (List.range' f n) ((f + k) :: S) (f + k)).length)
        ((f + k) :: S) (f + k) text hfuel hmin hm hSp'
      have hrun1 : runReassembler chunk
          { completedTexts := mkBuf chunk (List.range' f n) S (f + k),
            nextIndexToAppend := f + k, finalText := text } ((f + k) :: rest) =
          runReassembler chunk
            { completedTexts := mkBuf chunk (List.range' f n) ((f + k) :: S) (f + k + m),
              nextIndexToAppend := f + k + m,
              finalText :=
                List.foldl appendChunk text ((List.range' (f + k) m).map chunk) } rest := by
        simp only [runReassembler, List.foldl_cons]
        congr 1
        show publishResult _ (f + k) (chunk (f + k)) = _
        unfold publishResult tryAppendText
        simp only
        rw [hset]
        exact hdrain
      rw [hrun1]
      have harith : f + k + m = f + (k + m) := by omega
      have ih := runReassembler_drains chunk f n rest ((f + k) :: S) (k + m)
        (List.foldl appendChunk text ((List.range' (f + k) m).map chunk))
        hndr
        (fun i hi => by
          rcases ho i (List.mem_cons_of_mem _ hi) with ⟨hip, hiS, hige⟩
          refine ⟨hip, ?_, ?_⟩
          · intro hin
            rcases List.mem_cons.mp hin with he | hmem
            · exact hidxr (he ▸ hi)
            · exact hiS hmem
          · by_contra hlt
            have hjlt : i - (f + k) < m := by omega
            have := hmin (i - (f + k)) hjlt
            have he : f + k + (i - (f + k)) = i := by omega
            rw [he] at this
            rcases List.mem_cons.mp this with he2 | hmem
            · exact hidxr (he2 ▸ hi)
            · exact hiS hmem)
        hSp'
        (by
          have : f + (k + m) = f + k + m := by omega
          rw [this]
          exact hm)
        (by
          have h2 := (List.mem_range'_1.mp hidxp).2
          omega)
        (fun i hi hige => by
          have hige' : f + k ≤ i := by omega
          rcases hcov i hi hige' with h | h
          · exact Or.inl (List.mem_cons_of_mem _ h)
          · rcases List.mem_cons.mp h with he | hmem
            · exfalso
              omega
            · exact Or.inr hmem)
      rw [harith, ih]
      have hsplit : List.range' (f + k) (n - k) =
          List.range' (f + k) m ++ List.range' (f + k + m) (n - k - m) := by
        have := List.range'_append_1 (f + k) m (n - k - m)
        rw [this]
        congr 1
        omega
      rw [hsplit, List.map_append, List.foldl_append]
      have harith2 : f + k + m = f + (k + m) := by omega
      have harith3 : n - k - m = n - (k + m) := by omega
      rw [harith2, harith3]
    · -- the new chunk lands beyond the frontier: it is buffered, nothing flushes
      have hfk' : f + k ∉ (idx :: S) := by
        intro hin
        rcases List.mem_cons.mp hin with he | hmem
        · exact hcase he.symm
        · exact hfk hmem
      have hnoflush : lookupText (mkBuf chunk (List.range' f n) (idx :: S) (f + k)) (f + k) =
          none := by
        rw [lookupText_mkBuf]
        simp only [ite_eq_right_iff]
        intro hc
        exact absurd hc.2.1 hfk'
      have hrun1 : runReassembler chunk
          { completedTexts := mkBuf chunk (List.range' f n) S (f + k),
            nextIndexToAppend := f + k, finalText := text } (idx :: rest) =
          runReassembler chunk
            { completedTexts := mkBuf chunk (List.range' f n) (idx :: S) (f + k),
              nextIndexToAppend := f + k, finalText := text } rest := by
        simp only [runReassembler, List.foldl_cons]
        congr 1
        show publishResult _ idx (chunk idx) = _
        unfold publishResult
        simp only
        rw [hset]
        exact tryAppendText_lookup_none _ hnoflush
      rw [hrun1]
      exact runReassembler_drains chunk f n rest (idx :: S) k text
        hndr
        (fun i hi => by
          rcases ho i (List.mem_cons_of_mem _ hi) with ⟨hip, hiS, hige⟩
          refine ⟨hip, ?_, hige⟩
          intro hin
          rcases List.mem_cons.mp hin with he | hmem
          · exact hidxr (he ▸ hi)
          · exact hiS hmem)
        (fun i hi => by
          rcases List.mem_cons.mp hi with he | hmem
          · exact he ▸ hidxp
          · exact hSp i hmem)
        hfk'
        hk
        (fun i hi hige => by
          rcases hcov i hi hige with h | h
          · exact Or.inl (List.mem_cons_of_mem _ h)
          · rcases List.mem_cons.mp h with he | hmem
            · exact Or.inl (he ▸ List.mem_cons_self _ _)
            · exact Or.inr hmem)

/-! ### Claim C1 -/

/-- C1 (amended): for every batch run whose dispatched indices form a
contiguous block — in particular every fresh run, whose pending set is
`0, …, N-1` (second conjunct) — and every completion order (an arbitrary
permutation of the dispatched block), the final output text equals the
concatenation of each dispatched item's resulting chunk in original index
order, with exactly one blank-line separator between consecutive non-empty
chunks; empty chunks contribute no text and no separator but the frontier
still ends one past the block.  As originally stated (for every batch run,
including ones whose dispatched indices are non-contiguous) the claim is
false: see the counterexample. -/
theorem reassembled_output_is_ordered_concat (f n : Nat) (chunk : Nat → String)
    (order : List Nat) (hperm : order.Perm (List.range' f n)) :
    runReassembler chunk
        { completedTexts := [], nextIndexToAppend := f, finalText := "" } order =
      { completedTexts := [],
        nextIndexToAppend := f + n,
        finalText :=
          sepJoin (((List.range' f n).map chunk).filter (fun c => decide (c ≠ ""))) } ∧
    (∀ items : List Item, (∀ it ∈ items, it.status ≠ Status.completed) →
      pendingIndicesOf items = List.range items.length) := by
  constructor
  · have h0 : mkBuf chunk (List.range' f n) [] f = [] := by
      unfold mkBuf
      rw [List.filter_eq_nil_iff.mpr (by intro i _; simp), List.map_nil]
    have hmain := runReassembler_drains chunk f n order [] 0 ""
      (hperm.nodup_iff.mpr (nodup_range'_1 f n))
      (fun i hi => by
        have hir := hperm.subset hi
        exact ⟨hir, List.not_mem_nil i, by
          have := (List.mem_range'_1.mp hir).1
          omega⟩)
      (fun i hi => absurd hi (List.not_mem_nil i))
      (List.not_mem_nil _)
      (Nat.zero_le n)
      (fun i hi _ => Or.inr (hperm.symm.subset hi))
    rw [Nat.add_zero] at hmain
    rw [h0] at hmain
    rw [hmain, Nat.sub_zero]
    rw [foldl_appendChunk_eq_sepJoin]
  · intro items h
    unfold pendingIndicesOf
    apply List.filter_eq_self.mpr
    intro i hi
    have hlt : i < items.length := List.mem_range.mp hi
    have hmem : items.getD i defaultItem ∈ items := by
      rw [List.getD_eq_getElem _ _ hlt]
      exact List.getElem_mem hlt
    simpa using h _ hmem

/-- Witness for C1: a fresh three-item run completing in the order 1, 0, 2
reassembles to the in-order joined output, and a fresh one-item list has
pending block `[0]`. -/
theorem reassembled_output_is_ordered_concat_witness :
    (runReassembler (fun i => if i = 0 then "A" else if i = 1 then "B" else "C")
        { completedTexts := [], nextIndexToAppend := 0, finalText := "" } [1, 0, 2] =
      { completedTexts := [],
        nextIndexToAppend := 0 + 3,
        finalText :=
          sepJoin (((List.range' 0 3).map
              (fun i => if i = 0 then "A" else if i = 1 then "B" else "C")).filter
            (fun c => decide (c ≠ ""))) }) ∧
    pendingIndicesOf [{ status := .pending, progress := 0, processedText := none }] =
      List.range 1 :=
  ⟨(reassembled_output_is_ordered_concat 0 3
      (fun i => if i = 0 then "A" else if i = 1 then "B" else "C") [1, 0, 2]
      (by decide)).1,
   (reassembled_output_is_ordered_concat 0 3
      (fun i => if i = 0 then "A" else if i = 1 then "B" else "C") [1, 0, 2]
      (by decide)).2
     [{ status := .pending, progress := 0, processedText := none }]
     (by decide)⟩

/-- Counterexample to C1 as stated: a batch run whose dispatched indices are
`0` and `2` (a re-run after the middle item already completed) never flushes
the chunk of index 2 — the final output is `"X"` alone, not the ordered
concatenation `"X\n\nZ"` of both dispatched chunks. -/
theorem reassembled_output_drops_chunk_after_gap :
    (runReassembler (fun i => if i = 0 then "X" else "Z")
        { completedTexts := [], nextIndexToAppend := 0, finalText := "" } [0, 2]).finalText
      = "X" ∧
    "X" ≠ sepJoin (["X", "Z"].filter (fun c => decide (c ≠ ""))) := by
  constructor
  · rfl
  · decide

/-! ### Item-store and worker-pool helper lemmas -/

theorem mapWithIndex_getElem? (g : Nat → Item → Item) :
    ∀ (l : List Item) (start j : Nat),
      (mapWithIndex g start l)[j]? = (l[j]?).map (g (start + j))
  | [], start, j => by simp [mapWithIndex]
  | it :: rest, start, 0 => by simp [mapWithIndex]
  | it :: rest, start, j + 1 => by
    simp only [mapWithIndex, List.getElem?_cons_succ]
    rw [mapWithIndex_getElem? g rest (start + 1) j,
      show start + 1 + j = start + (j + 1) from by omega]

theorem updateAt_getElem? (items : List Item) (idx : Nat) (g : Item → Item) (j : Nat) :
    (updateAt items idx g)[j]? =
      (items[j]?).map (fun it => if j = idx then g it else it) := by
  unfold updateAt
  rw [mapWithIndex_getElem?]
  simp

theorem mapWithIndex_length (g : Nat → Item → Item) :
    ∀ (l : List Item) (start : Nat), (mapWithIndex g start l).length = l.length
  | [], _ => rfl
  | it :: rest, start => by
    simp [mapWithIndex, mapWithIndex_length g rest (start + 1)]

theorem updateAt_length (items : List Item) (idx : Nat) (g : Item → Item) :
    (updateAt items idx g).length = items.length :=
  mapWithIndex_length _ items 0

theorem stepBatch_workers_length (pend : List Nat) (s : BatchState) (c : SchedStep) :
    (stepBatch pend s c).workers.length = s.workers.length := by
  cases c with
  | claim w =>
    cases hw : s.workers[w]? with
    | none => simp [stepBatch, hw]
    | some ws =>
      cases ws with
      | idle =>
        by_cases hq : s.queuePointer < pend.length <;>
          simp [stepBatch, hw, hq, List.length_set]
      | waiting i => simp [stepBatch, hw]
      | done => simp [stepBatch, hw]
  | complete w r =>
    cases hw : s.workers[w]? with
    | none => simp [stepBatch, hw]
    | some ws =>
      cases ws with
      | idle => simp [stepBatch, hw]
      | waiting i => cases r <;> simp [stepBatch, hw, List.length_set]
      | done => simp [stepBatch, hw]
  | progressUpdate w p =>
    cases hw : s.workers[w]? with
    | none => simp [stepBatch, hw]
    | some ws => cases ws <;> simp [stepBatch, hw]

theorem runBatchSteps_invariant (pend : List Nat) (P : BatchState → Prop)
    (hstep : ∀ s c, P s → P (stepBatch pend s c)) :
    ∀ (sched : List SchedStep) (s : BatchState), P s → P (runBatchSteps pend s sched)
  | [], _, h => h
  | c :: cs, s, h =>
    runBatchSteps_invariant pend P hstep cs (stepBatch pend s c) (hstep s c h)

theorem mem_waitingIdxs_of_getElem? (ws : List WorkerState) (w i : Nat)
    (hw : ws[w]? = some (WorkerState.waiting i)) : i ∈ waitingIdxs ws :=
  List.mem_filterMap.mpr ⟨WorkerState.waiting i, List.getElem?_mem hw, rfl⟩

theorem mem_waitingIdxs_set (ws : List WorkerState) (w : Nat) (v : WorkerState) (x : Nat)
    (hx : x ∈ waitingIdxs ws)
    (hne : ∀ b, ws[w]? = some b → waitingIdx b ≠ some x) :
    x ∈ waitingIdxs (ws.set w v) := by
  rcases List.mem_filterMap.mp hx with ⟨a, ha, hfa⟩
  rcases List.mem_iff_getElem.mp ha with ⟨p, hp, he⟩
  have hget : ws[p]? = some a := by rw [List.getElem?_eq_getElem hp, he]
  have hpw : p ≠ w := by
    intro hc
    subst hc
    exact hne a hget hfa
  have hget2 : (ws.set w v)[p]? = some a := by
    rw [List.getElem?_set_ne (Ne.symm hpw)]
    exact hget
  exact List.mem_filterMap.mpr ⟨a, List.getElem?_mem hget2, hfa⟩

theorem getD_mem (l : List Nat) (pos : Nat) (h : pos < l.length) : l.getD pos 0 ∈ l := by
  rw [List.getD_eq_getElem _ _ h]
  exact List.getElem_mem h

theorem getD_inj_of_nodup (l : List Nat) (hnd : l.Nodup) (p q : Nat)
    (hp : p < l.length) (hq : q < l.length) (hpq : p ≠ q) : l.getD p 0 ≠ l.getD q 0 := by
  rw [List.getD_eq_getElem _ _ hp, List.getD_eq_getElem _ _ hq]
  intro he
  exact hpq ((List.Nodup.getElem_inj_iff hnd).mp he)

theorem pendingIndicesOf_nodup (items : List Item) : (pendingIndicesOf items).Nodup :=
  (List.nodup_range _).filter _

theorem mem_pendingIndicesOf (items : List Item) (i : Nat) :
    i ∈ pendingIndicesOf items ↔
      i < items.length ∧ (items.getD i defaultItem).status ≠ Status.completed := by
  unfold pendingIndicesOf
  rw [List.mem_filter, List.mem_range]
  simp


/-! ### Claim C10 -/

/-- C10: the success path of `processImageOCR` resolves to
`response.text || "No text detected in the image."`, so a successful
transcription never resolves to the empty string: an absent or empty backend
text is replaced by the non-empty fixed fallback. -/
theorem ocr_resolution_never_empty (rt : Option String) : ocrResolveText rt ≠ "" := by
  cases rt with
  | none =>
    simp only [ocrResolveText]
    decide
  | some t =>
    by_cases h : t = ""
    · simp only [ocrResolveText, h]
      decide
    · simp only [ocrResolveText]
      rw [if_pos h]
      exact h

/-! ### Claim C7 -/

/-- C7: `startBatch()` is a silent no-op when a run is in progress; with no
API key it starts no work and surfaces the configuration-needed signal (the
key modal); with no pending items it completes immediately as a no-op.  In
all three cases the returned application state — items, statuses, progress,
results and output — is exactly the input state. -/
theorem startBatch_noop_guards (app : AppState) (sched : List SchedStep) :
    (app.isProcessing = true → startBatchProcess app sched = (.alreadyRunning, app)) ∧
    (app.isProcessing = false → app.apiKey = "" →
      startBatchProcess app sched = (.needsKey, app)) ∧
    (app.isProcessing = false → app.apiKey ≠ "" → pendingIndicesOf app.images = [] →
      startBatchProcess app sched = (.noPending, app)) := by
  refine ⟨?_, ?_, ?_⟩
  · intro h
    simp [startBatchProcess, h]
  · intro h1 h2
    simp [startBatchProcess, h1, h2]
  · intro h1 h2 h3
    simp [startBatchProcess, h1, h2, h3]

/-- Witness for C7: each of the three guards at a concrete application
state. -/
theorem startBatch_noop_guards_witness :
    (startBatchProcess
        { images := [], finalText := "", isProcessing := true, apiKey := "k" } [] =
      (.alreadyRunning,
        { images := [], finalText := "", isProcessing := true, apiKey := "k" })) ∧
    (startBatchProcess
        { images := [], finalText := "", isProcessing := false, apiKey := "" } [] =
      (.needsKey,
        { images := [], finalText := "", isProcessing := false, apiKey := "" })) ∧
    (startBatchProcess
        { images := [{ status := .completed, progress := 1, processedText := some "Y" }],
          finalText := "Y", isProcessing := false, apiKey := "k" } [] =
      (.noPending,
        { images := [{ status := .completed, progress := 1, processedText := some "Y" }],
          finalText := "Y", isProcessing := false, apiKey := "k" })) :=
  ⟨(startBatch_noop_guards
      { images := [], finalText := "", isProcessing := true, apiKey := "k" } []).1 rfl,
   (startBatch_noop_guards
      { images := [], finalText := "", isProcessing := false, apiKey := "" } []).2.1
     rfl rfl,
   (startBatch_noop_guards
      { images := [{ status := .completed, progress := 1, processedText := some "Y" }],
        finalText := "Y", isProcessing := false, apiKey := "k" } []).2.2
     rfl (by decide) (by decide)⟩

/-! ### Claim C9 -/

/-- C9 (amended): when a worker claims an item it transitions the item's
status to `processing` (second conjunct) but leaves every item's progress
unchanged (first conjunct) — the spread `{ ...img, status: 'processing' }`
carries the old progress over, so there is no reset to 0. -/
theorem claim_transition_keeps_progress (pend : List Nat) (s : BatchState) (w : Nat) :
    (∀ i : Nat, ((stepBatch pend s (.claim w)).items[i]?).map Item.progress =
      (s.items[i]?).map Item.progress) ∧
    (s.workers[w]? = some WorkerState.idle → s.queuePointer < pend.length →
      (stepBatch pend s (.claim w)).items[pend.getD s.queuePointer 0]? =
        (s.items[pend.getD s.queuePointer 0]?).map
          (fun it => { it with status := Status.processing })) := by
  constructor
  · intro i
    cases hw : s.workers[w]? with
    | none => simp [stepBatch, hw]
    | some ws =>
      cases ws with
      | idle =>
        by_cases hq : s.queuePointer < pend.length
        · simp only [stepBatch, hw, if_pos hq]
          rw [updateAt_getElem?]
          cases s.items[i]? with
          | none => rfl
          | some it =>
            simp only [Option.map_some']
            split <;> rfl
        · simp [stepBatch, hw, hq]
      | waiting j => simp [stepBatch, hw]
      | done => simp [stepBatch, hw]
  · intro hw hq
    simp only [stepBatch, hw, if_pos hq]
    rw [updateAt_getElem?]
    simp

/-- Witness for C9: claiming the single pending item of a one-item list
keeps its progress (here `3/10`) and moves it to `processing`. -/
theorem claim_transition_keeps_progress_witness :
    (((stepBatch
        (pendingIndicesOf
          [{ status := Status.error, progress := progressPoint3, processedText := none }])
        (initBatchState
          [{ status := Status.error, progress := progressPoint3, processedText := none }] "")
        (.claim 0)).items[0]?).map Item.progress =
      (((initBatchState
          [{ status := Status.error, progress := progressPoint3, processedText := none }]
          "").items[0]?).map Item.progress)) ∧
    ((stepBatch
        (pendingIndicesOf
          [{ status := Status.error, progress := progressPoint3, processedText := none }])
        (initBatchState
          [{ status := Status.error, progress := progressPoint3, processedText := none }] "")
        (.claim 0)).items[(pendingIndicesOf
          [{ status := Status.error, progress := progressPoint3,
             processedText := none }]).getD
          (initBatchState
            [{ status := Status.error, progress := progressPoint3, processedText := none }]
            "").queuePointer 0]? =
      ((initBatchState
          [{ status := Status.error, progress := progressPoint3, processedText := none }]
          "").items[(pendingIndicesOf
            [{ status := Status.error, progress := progressPoint3,
               processedText := none }]).getD
          (initBatchState
            [{ status := Status.error, progress := progressPoint3, processedText := none }]
            "").queuePointer 0]?).map
        (fun it => { it with status := Status.processing })) :=
  ⟨(claim_transition_keeps_progress
      (pendingIndicesOf
        [{ status := Status.error, progress := progressPoint3, processedText := none }])
      (initBatchState
        [{ status := Status.error, progress := progressPoint3, processedText := none }] "")
      0).1 0,
   (claim_transition_keeps_progress
      (pendingIndicesOf
        [{ status := Status.error, progress := progressPoint3, processedText := none }])
      (initBatchState
        [{ status := Status.error, progress := progressPoint3, processedText := none }] "")
      0).2 (by decide) (by decide)⟩

/-- Counterexample to C9 as stated: claiming an item whose progress is `3/10`
(an `error` item left over with partial progress from an earlier run) moves
it to `processing` with progress still `3/10`, not reset to 0. -/
theorem claim_does_not_reset_progress :
    ((stepBatch
        (pendingIndicesOf
          [{ status := Status.error, progress := progressPoint3, processedText := none }])
        (initBatchState
          [{ status := Status.error, progress := progressPoint3, processedText := none }] "")
        (.claim 0)).items[0]?) =
      some { status := .processing, progress := progressPoint3, processedText := none } ∧
    progressPoint3 ≠ 0 := by
  constructor
  · decide
  · decide

/-! ### Claim C6 -/

/-- C6 (amended): a `completed` item is always excluded from a run's pending
set (second conjunct), so a second invocation after a fully successful run —
every item `completed` — processes zero items and leaves the entire
application state, in particular the output text, unchanged (first
conjunct).  As originally stated, for every item list, the claim is false:
a run that left `error` items re-processes them on the second invocation and
appends to the output — see the counterexample. -/
theorem second_run_noop_when_all_completed (app : AppState) (sched : List SchedStep)
    (hproc : app.isProcessing = false) (hkey : app.apiKey ≠ "")
    (hall : ∀ it ∈ app.images, it.status = Status.completed) :
    startBatchProcess app sched = (.noPending, app) ∧
    (∀ (items : List Item) (i : Nat) (it : Item), items[i]? = some it →
      it.status = Status.completed → i ∉ pendingIndicesOf items) := by
  constructor
  · have hpend : pendingIndicesOf app.images = [] := by
      unfold pendingIndicesOf
      apply List.filter_eq_nil_iff.mpr
      intro i hi
      have hlt : i < app.images.length := List.mem_range.mp hi
      have hmem : app.images.getD i defaultItem ∈ app.images := by
        rw [List.getD_eq_getElem _ _ hlt]
        exact List.getElem_mem hlt
      simpa using hall _ hmem
    simp [startBatchProcess, hproc, hkey, hpend]
  · intro items i it hit hcomp hmem
    unfold pendingIndicesOf at hmem
    have hp := List.of_mem_filter hmem
    have hgd : items.getD i defaultItem = it := by
      have : items.getD i defaultItem = (items[i]?).getD defaultItem := by
        simp [List.getD_eq_getElem?_getD]
      rw [this, hit]
      rfl
    rw [hgd] at hp
    simp only [decide_eq_true_eq] at hp
    exact hp hcomp

/-- Witness for C6: a single-item list whose item is already `completed` —
the second run is a no-op and index 0 is not pending. -/
theorem second_run_noop_when_all_completed_witness :
    (startBatchProcess
        { images := [{ status := .completed, progress := 1, processedText := some "Y" }],
          finalText := "Y", isProcessing := false, apiKey := "k" } [] =
      (.noPending,
        { images := [{ status := .completed, progress := 1, processedText := some "Y" }],
          finalText := "Y", isProcessing := false, apiKey := "k" })) ∧
    0 ∉ pendingIndicesOf
        [{ status := .completed, progress := 1, processedText := some "Y" }] :=
  ⟨(second_run_noop_when_all_completed
      { images := [{ status := .completed, progress := 1, processedText := some "Y" }],
        finalText := "Y", isProcessing := false, apiKey := "k" } []
      rfl (by decide) (by decide)).1,
   (second_run_noop_when_all_completed
      { images := [{ status := .completed, progress := 1, processedText := some "Y" }],
        finalText := "Y", isProcessing := false, apiKey := "k" } []
      rfl (by decide) (by decide)).2
     [{ status := .completed, progress := 1, processedText := some "Y" }] 0
     { status := .completed, progress := 1, processedText := some "Y" } rfl rfl⟩

/-- Counterexample to C6 as stated: one item whose transcription fails.  The
first run leaves it in `error` status with the placeholder in the output; the
second run (same items, untouched in between) re-processes it — the outcome
is `ran`, not a no-op — and appends a second placeholder, changing the
output text. -/
theorem second_run_reprocesses_failed_items :
    (startBatchProcess
        ((startBatchProcess
            { images := [{ status := .pending, progress := 0, processedText := none }],
              finalText := "", isProcessing := false, apiKey := "k" }
            [.claim 0, .complete 0 .err, .claim 0]).2)
        [.claim 0, .complete 0 .err, .claim 0]).1 = .ran ∧
    (startBatchProcess
        ((startBatchProcess
            { images := [{ status := .pending, progress := 0, processedText := none }],
              finalText := "", isProcessing := false, apiKey := "k" }
            [.claim 0, .complete 0 .err, .claim 0]).2)
        [.claim 0, .complete 0 .err, .claim 0]).2.finalText ≠
      (startBatchProcess
          { images := [{ status := .pending, progress := 0, processedText := none }],
            finalText := "", isProcessing := false, apiKey := "k" }
          [.claim 0, .complete 0 .err, .claim 0]).2.finalText := by
  constructor
  · decide
  · decide

/-! ### Claim C2 -/

/-- C2 (code bug exhibited): a run whose pending indices are the
non-contiguous `[0, 2]` — the item at index 1 was already `completed` at run
start — terminates (both workers join) with the completed-results buffer
still holding `(2, "Z")` and the frontier stuck at 1, not an empty buffer
with the frontier one past the last dispatched index (3).  Index 2's text is
flushed to the output never, even though its transcription succeeded. -/
theorem rerun_gap_leaves_buffer_stranded :
    pendingIndicesOf
        [{ status := .error, progress := 0, processedText := none },
         { status := .completed, progress := 1, processedText := some "Y" },
         { status := .error, progress := 0, processedText := none }] = [0, 2] ∧
    (∀ w ∈ (runBatchSteps [0, 2]
        (initBatchState
          [{ status := .error, progress := 0, processedText := none },
           { status := .completed, progress := 1, processedText := some "Y" },
           { status := .error, progress := 0, processedText := none }] "")
        [.claim 0, .complete 0 (.ok "X"), .claim 0, .complete 0 (.ok "Z"),
         .claim 0, .claim 1]).workers, w = WorkerState.done) ∧
    (runBatchSteps [0, 2]
        (initBatchState
          [{ status := .error, progress := 0, processedText := none },
           { status := .completed, progress := 1, processedText := some "Y" },
           { status := .error, progress := 0, processedText := none }] "")
        [.claim 0, .complete 0 (.ok "X"), .claim 0, .complete 0 (.ok "Z"),
         .claim 0, .claim 1]).reasm.completedTexts = [(2, "Z")] ∧
    (runBatchSteps [0, 2]
        (initBatchState
          [{ status := .error, progress := 0, processedText := none },
           { status := .completed, progress := 1, processedText := some "Y" },
           { status := .error, progress := 0, processedText := none }] "")
        [.claim 0, .complete 0 (.ok "X"), .claim 0, .complete 0 (.ok "Z"),
         .claim 0, .claim 1]).reasm.nextIndexToAppend = 1 ∧ (1 : Nat) ≠ 2 + 1 := by
  refine ⟨by decide, by decide, by decide, by decide, by decide⟩

/-! ### Claim C8 -/

/-- Counterexample to C8 as stated: after a run in which the single item's
transcription fails, the item has status `error` and no result text at all —
the catch branch writes only `{ ...img, status: 'error' }`; the placeholder
goes to the reassembly buffer, never to the item. -/
theorem error_item_lacks_result_text :
    ((startBatchProcess
        { images := [{ status := .pending, progress := 0, processedText := none }],
          finalText := "", isProcessing := false, apiKey := "k" }
        [.claim 0, .complete 0 .err, .claim 0]).2.images.getD 0 defaultItem).status =
      Status.error ∧
    ((startBatchProcess
        { images := [{ status := .pending, progress := 0, processedText := none }],
          finalText := "", isProcessing := false, apiKey := "k" }
        [.claim 0, .complete 0 .err, .claim 0]).2.images.getD 0 defaultItem).processedText =
      none := by
  constructor
  · decide
  · decide

/-! ### Claim C3 -/

theorem stepBatch_preserves_claimTrace (pend : List Nat) (s : BatchState) (c : SchedStep)
    (h : ClaimTraceInv pend s) : ClaimTraceInv pend (stepBatch pend s c) := by
  obtain ⟨h1, h2, h3⟩ := h
  cases c with
  | claim w =>
    cases hw : s.workers[w]? with
    | none =>
      have hs : stepBatch pend s (.claim w) = s := by simp [stepBatch, hw]
      rw [hs]
      exact ⟨h1, h2, h3⟩
    | some ws =>
      cases ws with
      | idle =>
        by_cases hq : s.queuePointer < pend.length
        · have hs : stepBatch pend s (.claim w) =
              { s with
                queuePointer := s.queuePointer + 1,
                items := updateAt s.items (pend.getD s.queuePointer 0)
                  (fun it => { it with status := .processing }),
                workers := s.workers.set w (.waiting (pend.getD s.queuePointer 0)),
                claims := s.claims ++ [s.queuePointer] } := by
            simp [stepBatch, hw, hq]
          rw [hs]
          refine ⟨?_, by show s.queuePointer + 1 ≤ pend.length; omega, ?_⟩
          · show s.claims ++ [s.queuePointer] = List.range (s.queuePointer + 1)
            rw [h1, List.range_succ]
          · rintro ⟨w', hw', hdone⟩
            subst hdone
            rcases List.mem_or_eq_of_mem_set hw' with hmem | he
            · have := h3 ⟨_, hmem, rfl⟩
              show s.queuePointer + 1 = pend.length
              omega
            · cases he
        · have hs : stepBatch pend s (.claim w) =
              { s with workers := s.workers.set w .done } := by
            simp [stepBatch, hw, hq]
          rw [hs]
          exact ⟨h1, h2, fun _ => by show s.queuePointer = pend.length; omega⟩
      | waiting i =>
        have hs : stepBatch pend s (.claim w) = s := by simp [stepBatch, hw]
        rw [hs]
        exact ⟨h1, h2, h3⟩
      | done =>
        have hs : stepBatch pend s (.claim w) = s := by simp [stepBatch, hw]
        rw [hs]
        exact ⟨h1, h2, h3⟩
  | complete w r =>
    cases hw : s.workers[w]? with
    | none =>
      have hs : stepBatch pend s (.complete w r) = s := by simp [stepBatch, hw]
      rw [hs]
      exact ⟨h1, h2, h3⟩
    | some ws =>
      cases ws with
      | idle =>
        have hs : stepBatch pend s (.complete w r) = s := by simp [stepBatch, hw]
        rw [hs]
        exact ⟨h1, h2, h3⟩
      | waiting i =>
        have hdone : ∀ t : BatchState, t.claims = s.claims → t.queuePointer = s.queuePointer →
            t.workers = s.workers.set w .idle → ClaimTraceInv pend t := by
          intro t hc hqp hws
          refine ⟨hc ▸ hqp ▸ h1, hqp ▸ h2, ?_⟩
          rintro ⟨w', hw', hdone⟩
          subst hdone
          rw [hws] at hw'
          rcases List.mem_or_eq_of_mem_set hw' with hmem | he
          · exact hqp ▸ h3 ⟨_, hmem, rfl⟩
          · cases he
        cases r with
        | ok tx =>
          have hs : stepBatch pend s (.complete w (.ok tx)) =
              { s with
                items := updateAt s.items i
                  (fun it => { it with status := .completed, processedText := some tx }),
                reasm := publishResult s.reasm i tx,
                workers := s.workers.set w .idle } := by
            simp [stepBatch, hw]
          exact hs ▸ hdone _ rfl rfl rfl
        | err =>
          have hs : stepBatch pend s (.complete w .err) =
              { s with
                items := updateAt s.items i (fun it => { it with status := .error }),
                reasm := publishResult s.reasm i PLACEHOLDER_TEXT,
                workers := s.workers.set w .idle } := by
            simp [stepBatch, hw]
          exact hs ▸ hdone _ rfl rfl rfl
      | done =>
        have hs : stepBatch pend s (.complete w r) = s := by simp [stepBatch, hw]
        rw [hs]
        exact ⟨h1, h2, h3⟩
  | progressUpdate w p =>
    cases hw : s.workers[w]? with
    | none =>
      have hs : stepBatch pend s (.progressUpdate w p) = s := by simp [stepBatch, hw]
      rw [hs]
      exact ⟨h1, h2, h3⟩
    | some ws =>
      cases ws with
      | idle =>
        have hs : stepBatch pend s (.progressUpdate w p) = s := by simp [stepBatch, hw]
        rw [hs]
        exact ⟨h1, h2, h3⟩
      | waiting i =>
        have hs : stepBatch pend s (.progressUpdate w p) =
            { s with items := updateAt s.items i (fun it => { it with progress := p }) } := by
          simp [stepBatch, hw]
        rw [hs]
        exact ⟨h1, h2, h3⟩
      | done =>
        have hs : stepBatch pend s (.progressUpdate w p) = s := by simp [stepBatch, hw]
        rw [hs]
        exact ⟨h1, h2, h3⟩

/-- C3: in every batch run, under every schedule, the ghost trace of claimed
queue positions is exactly `0, 1, …, queuePointer-1` in that order — each
pending position is claimed at most once, in strictly increasing order, with
no position skipped — the cursor never passes the end of the pending list,
and when the run has completed (all workers joined, the pool being
non-empty) the cursor equals the pending-list length: every pending index
was claimed, hence handed to the Transcription Port, exactly once. -/
theorem worker_claims_each_index_exactly_once (items : List Item) (ft : String)
    (sched : List SchedStep) :
    (runBatchSteps (pendingIndicesOf items) (initBatchState items ft) sched).claims =
      List.range
        (runBatchSteps (pendingIndicesOf items) (initBatchState items ft) sched).queuePointer ∧
    (runBatchSteps (pendingIndicesOf items) (initBatchState items ft) sched).queuePointer ≤
      (pendingIndicesOf items).length ∧
    ((∀ w ∈ (runBatchSteps (pendingIndicesOf items)
        (initBatchState items ft) sched).workers, w = WorkerState.done) →
      (runBatchSteps (pendingIndicesOf items) (initBatchState items ft) sched).workers ≠ [] →
      (runBatchSteps (pendingIndicesOf items) (initBatchState items ft) sched).queuePointer =
        (pendingIndicesOf items).length) := by
  have hinit : ClaimTraceInv (pendingIndicesOf items) (initBatchState items ft) := by
    refine ⟨rfl, Nat.zero_le _, ?_⟩
    rintro ⟨w, hw, hdone⟩
    subst hdone
    have := List.eq_of_mem_replicate hw
    cases this
  have hinv := runBatchSteps_invariant (pendingIndicesOf items)
    (ClaimTraceInv (pendingIndicesOf items))
    (stepBatch_preserves_claimTrace (pendingIndicesOf items)) sched
    (initBatchState items ft) hinit
  obtain ⟨g1, g2, g3⟩ := hinv
  refine ⟨g1, g2, fun hall hne => g3 ?_⟩
  rcases List.exists_mem_of_ne_nil _ hne with ⟨w, hw⟩
  exact ⟨w, hw, hall w hw⟩

/-- Witness for C3: a one-item run driven to completion — the claim trace is
`[0]`, the cursor sits at the queue end, and the joined pool certifies the
index was claimed exactly once. -/
theorem worker_claims_each_index_exactly_once_witness :
    ((runBatchSteps
        (pendingIndicesOf [{ status := .pending, progress := 0, processedText := none }])
        (initBatchState [{ status := .pending, progress := 0, processedText := none }] "")
        [.claim 0, .complete 0 (.ok "A"), .claim 0]).claims =
      List.range (runBatchSteps
        (pendingIndicesOf [{ status := .pending, progress := 0, processedText := none }])
        (initBatchState [{ status := .pending, progress := 0, processedText := none }] "")
        [.claim 0, .complete 0 (.ok "A"), .claim 0]).queuePointer) ∧
    ((runBatchSteps
        (pendingIndicesOf [{ status := .pending, progress := 0, processedText := none }])
        (initBatchState [{ status := .pending, progress := 0, processedText := none }] "")
        [.claim 0, .complete 0 (.ok "A"), .claim 0]).queuePointer =
      (pendingIndicesOf
        [{ status := .pending, progress := 0, processedText := none }]).length) :=
  ⟨(worker_claims_each_index_exactly_once
      [{ status := .pending, progress := 0, processedText := none }] ""
      [.claim 0, .complete 0 (.ok "A"), .claim 0]).1,
   (worker_claims_each_index_exactly_once
      [{ status := .pending, progress := 0, processedText := none }] ""
      [.claim 0, .complete 0 (.ok "A"), .claim 0]).2.2 (by decide) (by decide)⟩

/-! ### Claim C5 -/

theorem stepBatch_preserves_processingWitness (pend : List Nat) (s : BatchState)
    (c : SchedStep) (h : ProcessingWitnessInv s) :
    ProcessingWitnessInv (stepBatch pend s c) := by
  cases c with
  | claim w =>
    cases hw : s.workers[w]? with
    | none =>
      have hs : stepBatch pend s (.claim w) = s := by simp [stepBatch, hw]
      rw [hs]
      exact h
    | some ws =>
      cases ws with
      | idle =>
        by_cases hq : s.queuePointer < pend.length
        · have hs : stepBatch pend s (.claim w) =
              { s with
                queuePointer := s.queuePointer + 1,
                items := updateAt s.items (pend.getD s.queuePointer 0)
                  (fun it => { it with status := .processing }),
                workers := s.workers.set w (.waiting (pend.getD s.queuePointer 0)),
                claims := s.claims ++ [s.queuePointer] } := by
            simp [stepBatch, hw, hq]
          rw [hs]
          intro i it hit hproc
          simp only at hit
          rw [updateAt_getElem?] at hit
          cases hsi : s.items[i]? with
          | none => rw [hsi] at hit; cases hit
          | some it0 =>
            rw [hsi] at hit
            simp only [Option.map_some'] at hit
            injection hit with hit
            by_cases hi : i = pend.getD s.queuePointer 0
            · subst hi
              have hwlt : w < s.workers.length := (List.getElem?_eq_some.mp hw).1
              exact List.mem_filterMap.mpr
                ⟨.waiting (pend.getD s.queuePointer 0),
                 List.getElem?_mem (List.getElem?_set_eq_of_lt _ hwlt), rfl⟩
            · rw [if_neg hi] at hit
              subst hit
              have hold := h i it0 hsi hproc
              exact mem_waitingIdxs_set s.workers w _ i hold
                (fun b hb => by
                  rw [hw] at hb
                  injection hb with hb
                  subst hb
                  simp [waitingIdx])
        · have hs : stepBatch pend s (.claim w) =
              { s with workers := s.workers.set w .done } := by
            simp [stepBatch, hw, hq]
          rw [hs]
          intro i it hit hproc
          simp only at hit
          have hold := h i it hit hproc
          exact mem_waitingIdxs_set s.workers w _ i hold
            (fun b hb => by
              rw [hw] at hb
              injection hb with hb
              subst hb
              simp [waitingIdx])
      | waiting j =>
        have hs : stepBatch pend s (.claim w) = s := by simp [stepBatch, hw]
        rw [hs]
        exact h
      | done =>
        have hs : stepBatch pend s (.claim w) = s := by simp [stepBatch, hw]
        rw [hs]
        exact h
  | complete w r =>
    cases hw : s.workers[w]? with
    | none =>
      have hs : stepBatch pend s (.complete w r) = s := by simp [stepBatch, hw]
      rw [hs]
      exact h
    | some ws =>
      cases ws with
      | idle =>
        have hs : stepBatch pend s (.complete w r) = s := by simp [stepBatch, hw]
        rw [hs]
        exact h
      | waiting idx =>
        have key : ∀ (t : BatchState) (g : Item → Item),
            t.items = updateAt s.items idx g → t.workers = s.workers.set w .idle →
            (∀ it : Item, (g it).status ≠ Status.processing) →
            ProcessingWitnessInv t := by
          intro t g hti htw hg
          intro i it hit hproc
          rw [hti, updateAt_getElem?] at hit
          cases hsi : s.items[i]? with
          | none => rw [hsi] at hit; cases hit
          | some it0 =>
            rw [hsi] at hit
            simp only [Option.map_some'] at hit
            injection hit with hit
            by_cases hi : i = idx
            · subst hi
              rw [if_pos rfl] at hit
              subst hit
              exact absurd hproc (hg it0)
            · rw [if_neg hi] at hit
              subst hit
              have hold := h i it0 hsi hproc
              rw [htw]
              exact mem_waitingIdxs_set s.workers w _ i hold
                (fun b hb => by
                  rw [hw] at hb
                  injection hb with hb
                  subst hb
                  simp only [waitingIdx]
                  intro hc
                  injection hc with hc
                  exact hi hc.symm)
        cases r with
        | ok tx =>
          have hs : stepBatch pend s (.complete w (.ok tx)) =
              { s with
                items := updateAt s.items idx
                  (fun it => { it with status := .completed, processedText := some tx }),
                reasm := publishResult s.reasm idx tx,
                workers := s.workers.set w .idle } := by
            simp [stepBatch, hw]
          rw [hs]
          exact key _ (fun it => { it with status := .completed, processedText := some tx })
            rfl rfl (fun it => by simp)
        | err =>
          have hs : stepBatch pend s (.complete w .err) =
              { s with
                items := updateAt s.items idx (fun it => { it with status := .error }),
                reasm := publishResult s.reasm idx PLACEHOLDER_TEXT,
                workers := s.workers.set w .idle } := by
            simp [stepBatch, hw]
          rw [hs]
          exact key _ (fun it => { it with status := .error })
            rfl rfl (fun it => by simp)
      | done =>
        have hs : stepBatch pend s (.complete w r) = s := by simp [stepBatch, hw]
        rw [hs]
        exact h
  | progressUpdate w p =>
    cases hw : s.workers[w]? with
    | none =>
      have hs : stepBatch pend s (.progressUpdate w p) = s := by simp [stepBatch, hw]
      rw [hs]
      exact h
    | some ws =>
      cases ws with
      | idle =>
        have hs : stepBatch pend s (.progressUpdate w p) = s := by simp [stepBatch, hw]
        rw [hs]
        exact h
      | waiting idx =>
        have hs : stepBatch pend s (.progressUpdate w p) =
            { s with items := updateAt s.items idx (fun it => { it with progress := p }) } := by
          simp [stepBatch, hw]
        rw [hs]
        intro i it hit hproc
        simp only at hit
        rw [updateAt_getElem?] at hit
        cases hsi : s.items[i]? with
        | none => rw [hsi] at hit; cases hit
        | some it0 =>
          rw [hsi] at hit
          simp only [Option.map_some'] at hit
          injection hit with hit
          by_cases hi : i = idx
          · rw [if_pos hi] at hit
            subst hit
            exact h i it0 hsi hproc
          · rw [if_neg hi] at hit
            subst hit
            exact h i it0 hsi hproc
      | done =>
        have hs : stepBatch pend s (.progressUpdate w p) = s := by simp [stepBatch, hw]
        rw [hs]
        exact h

theorem runBatchSteps_workers_length (pend : List Nat) (sched : List SchedStep)
    (s : BatchState) :
    (runBatchSteps pend s sched).workers.length = s.workers.length := by
  have := runBatchSteps_invariant pend
    (fun t => t.workers.length = s.workers.length)
    (fun t c ht => by
      show (stepBatch pend t c).workers.length = s.workers.length
      rw [stepBatch_workers_length]
      exact ht) sched s rfl
  exact this

/-- C5: a run over items none of which is initially in `processing` status
starts exactly `min(CONCURRENCY_LIMIT, P)` workers, with
`CONCURRENCY_LIMIT = 3` (first conjunct), and at every observable instant —
after every schedule prefix — at most `CONCURRENCY_LIMIT` items are
simultaneously in `processing` status (second conjunct). -/
theorem concurrency_ceiling (items : List Item) (ft : String) :
    (initBatchState items ft).workers.length =
      min CONCURRENCY_LIMIT (pendingIndicesOf items).length ∧
    (∀ sched : List SchedStep, (∀ it ∈ items, it.status ≠ Status.processing) →
      processingCount
          (runBatchSteps (pendingIndicesOf items) (initBatchState items ft) sched).items ≤
        CONCURRENCY_LIMIT) := by
  constructor
  · simp [initBatchState]
  · intro sched hinit
    have hinv : ProcessingWitnessInv
        (runBatchSteps (pendingIndicesOf items) (initBatchState items ft) sched) := by
      apply runBatchSteps_invariant (pendingIndicesOf items) ProcessingWitnessInv
        (stepBatch_preserves_processingWitness (pendingIndicesOf items)) sched
      intro i it hit hproc
      exact absurd hproc (hinit it (List.getElem?_mem hit))
    have hsub : processingIndices
        (runBatchSteps (pendingIndicesOf items) (initBatchState items ft) sched).items ⊆
        waitingIdxs
          (runBatchSteps (pendingIndicesOf items) (initBatchState items ft) sched).workers := by
      intro i hi
      have hi' := List.mem_filter.mp hi
      have hlt := List.mem_range.mp hi'.1
      have hstat : ((runBatchSteps (pendingIndicesOf items)
          (initBatchState items ft) sched).items.getD i defaultItem).status =
          Status.processing := by
        have := hi'.2
        simpa using this
      have hget : (runBatchSteps (pendingIndicesOf items)
          (initBatchState items ft) sched).items[i]? =
          some ((runBatchSteps (pendingIndicesOf items)
            (initBatchState items ft) sched).items.getD i defaultItem) := by
        rw [List.getD_eq_getElem _ _ hlt]
        exact List.getElem?_eq_getElem hlt
      exact hinv i _ hget hstat
    have hnd : (processingIndices
        (runBatchSteps (pendingIndicesOf items) (initBatchState items ft) sched).items).Nodup :=
      (List.nodup_range _).filter _
    have h1 := (List.subperm_of_subset hnd hsub).length_le
    have h2 := List.length_filterMap_le waitingIdx
      (runBatchSteps (pendingIndicesOf items) (initBatchState items ft) sched).workers
    have h3 := runBatchSteps_workers_length (pendingIndicesOf items) sched
      (initBatchState items ft)
    unfold processingCount
    calc (processingIndices
          (runBatchSteps (pendingIndicesOf items) (initBatchState items ft) sched).items).length
        ≤ (waitingIdxs
            (runBatchSteps (pendingIndicesOf items)
              (initBatchState items ft) sched).workers).length := h1
      _ ≤ (runBatchSteps (pendingIndicesOf items)
            (initBatchState items ft) sched).workers.length := h2
      _ = (initBatchState items ft).workers.length := h3
      _ = min CONCURRENCY_LIMIT (pendingIndicesOf items).length := by simp [initBatchState]
      _ ≤ CONCURRENCY_LIMIT := Nat.min_le_left _ _

/-- Witness for C5: a fresh one-item list starts `min(3, 1) = 1` worker, and
after a claim step at most 3 items are processing. -/
theorem concurrency_ceiling_witness :
    ((initBatchState [{ status := .pending, progress := 0, processedText := none }]
        "").workers.length =
      min CONCURRENCY_LIMIT
        (pendingIndicesOf
          [{ status := .pending, progress := 0, processedText := none }]).length) ∧
    processingCount
        (runBatchSteps
          (pendingIndicesOf [{ status := .pending, progress := 0, processedText := none }])
          (initBatchState [{ status := .pending, progress := 0, processedText := none }] "")
          [.claim 0]).items ≤ CONCURRENCY_LIMIT :=
  ⟨(concurrency_ceiling [{ status := .pending, progress := 0, processedText := none }] "").1,
   (concurrency_ceiling [{ status := .pending, progress := 0, processedText := none }] "").2
     [.claim 0] (by decide)⟩

/-! ### Claim C4 -/

theorem set_self_of_getElem? {α : Type} (l : List α) (n : Nat) (a : α)
    (h : l[n]? = some a) : l.set n a = l := by
  apply List.ext_getElem?
  intro m
  by_cases hm : m = n
  · subst hm
    rw [List.getElem?_set_eq_of_lt a (List.getElem?_eq_some.mp h).1, h]
  · rw [List.getElem?_set_ne (fun he => hm he.symm)]

theorem set_append_middle {α : Type} :
    ∀ (l1 : List α) (x : α) (l2 : List α) (v : α),
      (l1 ++ x :: l2).set l1.length v = l1 ++ v :: l2
  | [], _, _, _ => rfl
  | y :: l1, x, l2, v => by
    show y :: ((l1 ++ x :: l2).set l1.length v) = y :: (l1 ++ v :: l2)
    rw [set_append_middle l1 x l2 v]

theorem settleSched_drains (res : Nat → OCROutcome) (pend : List Nat) (hnd : pend.Nodup) :
    ∀ (m : Nat) (s : BatchState),
      s.workers[0]? = some WorkerState.idle →
      s.queuePointer + m = pend.length →
      (runBatchSteps pend s (settleSched res pend s.queuePointer m)).queuePointer =
        pend.length ∧
      (runBatchSteps pend s (settleSched res pend s.queuePointer m)).workers = s.workers ∧
      (∀ j : Nat, (∀ pos : Nat, s.queuePointer ≤ pos → pos < pend.length →
          pend.getD pos 0 ≠ j) →
        (runBatchSteps pend s (settleSched res pend s.queuePointer m)).items[j]? =
          s.items[j]?) ∧
      (∀ pos : Nat, s.queuePointer ≤ pos → pos < pend.length →
        (runBatchSteps pend s
            (settleSched res pend s.queuePointer m)).items[pend.getD pos 0]? =
          (s.items[pend.getD pos 0]?).map (settledItem (res (pend.getD pos 0))))
  | 0, s, _, hq =>
    ⟨by show s.queuePointer = pend.length; omega, rfl, fun j _ => rfl,
     fun pos hle hlt => absurd hlt (by omega)⟩
  | m + 1, s, hidle, hq => by
    have hqlt : s.queuePointer < pend.length := by omega
    have h0lt : 0 < s.workers.length := (List.getElem?_eq_some.mp hidle).1
    set idx := pend.getD s.queuePointer 0 with hidxdef
    set s1 := stepBatch pend s (.claim 0) with hs1def
    have hstep1 : s1 =
        { s with
          queuePointer := s.queuePointer + 1,
          items := updateAt s.items idx (fun it => { it with status := .processing }),
          workers := s.workers.set 0 (.waiting idx),
          claims := s.claims ++ [s.queuePointer] } := by
      rw [hs1def]
      simp [stepBatch, hidle, hqlt, hidxdef]
    have hw1 : s1.workers[0]? = some (WorkerState.waiting idx) := by
      rw [hstep1]
      exact List.getElem?_set_eq_of_lt _ h0lt
    have hqp1 : s1.queuePointer = s.queuePointer + 1 := by
      rw [hstep1]
    have hitems1 : s1.items =
        updateAt s.items idx (fun it => { it with status := Status.processing }) := by
      rw [hstep1]
    set s2 := stepBatch pend s1 (.complete 0 (res idx)) with hs2def
    have hqp2 : s2.queuePointer = s.queuePointer + 1 := by
      rw [hs2def]
      cases res idx <;> simp [stepBatch, hw1, hqp1]
    have hws2 : s2.workers = s.workers := by
      have hset : s2.workers = s1.workers.set 0 .idle := by
        rw [hs2def]
        cases res idx <;> simp [stepBatch, hw1]
      rw [hset, hstep1]
      show (s.workers.set 0 _).set 0 .idle = s.workers
      rw [List.set_set]
      exact set_self_of_getElem? s.workers 0 .idle hidle
    have hitems2 : s2.items = updateAt s1.items idx (settledItem (res idx)) := by
      rw [hs2def]
      cases res idx with
      | ok tx =>
        show (stepBatch pend s1 (.complete 0 (.ok tx))).items = _
        simp only [stepBatch, hw1]
        rfl
      | err =>
        show (stepBatch pend s1 (.complete 0 .err)).items = _
        simp only [stepBatch, hw1]
        rfl
    have hitem_other : ∀ j : Nat, ¬ j = idx → s2.items[j]? = s.items[j]? := by
      intro j hj
      rw [hitems2, updateAt_getElem?, hitems1, updateAt_getElem?]
      cases s.items[j]? with
      | none => rfl
      | some it0 =>
        simp only [Option.map_some']
        rw [if_neg hj, if_neg hj]
    have hitem_idx : s2.items[idx]? = (s.items[idx]?).map (settledItem (res idx)) := by
      rw [hitems2, updateAt_getElem?, hitems1, updateAt_getElem?]
      cases s.items[idx]? with
      | none => rfl
      | some it0 =>
        simp only [Option.map_some']
        simp only [eq_self_iff_true, if_true]
        cases res idx <;> rfl
    have hidle2 : s2.workers[0]? = some WorkerState.idle := by
      rw [hws2]
      exact hidle
    have ih := settleSched_drains res pend hnd m s2 hidle2 (by omega)
    rw [hqp2] at ih
    obtain ⟨ih1, ih2, ih3, ih4⟩ := ih
    have hrun : runBatchSteps pend s (settleSched res pend s.queuePointer (m + 1)) =
        runBatchSteps pend s2 (settleSched res pend (s.queuePointer + 1) m) := rfl
    rw [hrun]
    refine ⟨ih1, by rw [ih2, hws2], ?_, ?_⟩
    · intro j hjcond
      have hidxj : ¬ idx = j := by
        rw [hidxdef]
        exact hjcond s.queuePointer (le_refl _) hqlt
      rw [ih3 j (fun pos hpos hplt => hjcond pos (by omega) hplt)]
      exact hitem_other j (fun he => hidxj he.symm)
    · intro pos hle hlt
      by_cases hpos : pos = s.queuePointer
      · subst hpos
        rw [← hidxdef]
        have hfin_idx : (runBatchSteps pend s2
            (settleSched res pend (s.queuePointer + 1) m)).items[idx]? =
            s2.items[idx]? := by
          apply ih3
          intro pos2 hpos2 hplt2
          rw [hidxdef]
          exact getD_inj_of_nodup pend hnd pos2 s.queuePointer hplt2 hqlt (by omega)
        rw [hfin_idx, hitem_idx]
      · have hgt : s.queuePointer + 1 ≤ pos := by omega
        have hstep := ih4 pos hgt hlt
        rw [hstep, hitem_other (pend.getD pos 0)
          (by
            rw [hidxdef]
            exact getD_inj_of_nodup pend hnd pos s.queuePointer hlt hqlt (by omega))]

theorem finishSched_joins (pend : List Nat) :
    ∀ (b a : Nat) (s : BatchState),
      ¬ s.queuePointer < pend.length →
      s.workers = List.replicate a WorkerState.done ++ List.replicate b WorkerState.idle →
      (runBatchSteps pend s (finishSched a b)).workers =
        List.replicate (a + b) WorkerState.done ∧
      (runBatchSteps pend s (finishSched a b)).queuePointer = s.queuePointer ∧
      (runBatchSteps pend s (finishSched a b)).items = s.items
  | 0, a, s, _, hws => by
    refine ⟨?_, rfl, rfl⟩
    show s.workers = List.replicate (a + 0) WorkerState.done
    rw [hws]
    simp
  | b + 1, a, s, hq, hws => by
    have hwa : s.workers[a]? = some WorkerState.idle := by
      rw [hws, List.getElem?_append_right (by simp)]
      simp [List.replicate_succ]
    have hstep : stepBatch pend s (.claim a) = { s with workers := s.workers.set a .done } := by
      simp [stepBatch, hwa, hq]
    have hset : s.workers.set a WorkerState.done =
        List.replicate (a + 1) WorkerState.done ++ List.replicate b WorkerState.idle := by
      rw [hws, List.replicate_succ]
      have hmid := set_append_middle (List.replicate a WorkerState.done) WorkerState.idle
        (List.replicate b WorkerState.idle) WorkerState.done
      rw [List.length_replicate] at hmid
      rw [hmid, List.replicate_succ']
      simp [List.append_assoc]
    have hsched : finishSched a (b + 1) = SchedStep.claim a :: finishSched (a + 1) b := by
      unfold finishSched
      rw [List.range'_succ, List.map_cons]
    have ih := finishSched_joins pend b (a + 1) (stepBatch pend s (.claim a))
      (by rw [hstep]; exact hq)
      (by rw [hstep]; exact hset)
    rw [hsched]
    have hrun : runBatchSteps pend s (SchedStep.claim a :: finishSched (a + 1) b) =
        runBatchSteps pend (stepBatch pend s (.claim a)) (finishSched (a + 1) b) := rfl
    rw [hrun]
    refine ⟨?_, ?_, ?_⟩
    · rw [ih.1]
      congr 1
      omega
    · rw [ih.2.1, hstep]
    · rw [ih.2.2, hstep]

/-- C4: a failed transcription is handled entirely inside the worker — the
`complete`-with-failure step sets the claimed item's status to `error` and
publishes the fixed placeholder at the item's index to the reassembler, while
the pool keeps running (the worker returns to its claiming loop); and for
every item list and every assignment of outcomes (successes and failures
mixed arbitrarily) there is a schedule in which every transcription call
settles and the batch run completes: all workers join and every pending
position has been claimed. -/
theorem failure_isolated_and_batch_completes :
    (∀ (pend : List Nat) (s : BatchState) (w idx : Nat),
      s.workers[w]? = some (WorkerState.waiting idx) →
      stepBatch pend s (.complete w .err) =
        { s with
          items := updateAt s.items idx (fun it => { it with status := Status.error }),
          reasm := publishResult s.reasm idx PLACEHOLDER_TEXT,
          workers := s.workers.set w WorkerState.idle }) ∧
    (∀ (items : List Item) (ft : String) (res : Nat → OCROutcome),
      ∃ sched : List SchedStep,
        (∀ w ∈ (runBatchSteps (pendingIndicesOf items)
            (initBatchState items ft) sched).workers, w = WorkerState.done) ∧
        (runBatchSteps (pendingIndicesOf items)
            (initBatchState items ft) sched).queuePointer =
          (pendingIndicesOf items).length ∧
        (∀ pos : Nat, pos < (pendingIndicesOf items).length →
          (runBatchSteps (pendingIndicesOf items)
              (initBatchState items ft) sched).items[(pendingIndicesOf
                items).getD pos 0]? =
            (items[(pendingIndicesOf items).getD pos 0]?).map
              (settledItem (res ((pendingIndicesOf items).getD pos 0))))) := by
  constructor
  · intro pend s w idx hw
    simp [stepBatch, hw]
  · intro items ft res
    by_cases hlen : (pendingIndicesOf items).length = 0
    · refine ⟨[], ?_, ?_, ?_⟩
      · intro w hw
        have : (initBatchState items ft).workers = [] := by
          simp [initBatchState, hlen]
        rw [show runBatchSteps (pendingIndicesOf items) (initBatchState items ft) [] =
            initBatchState items ft from rfl, this] at hw
        cases hw
      · rw [hlen]
        rfl
      · intro pos hplt
        omega
    · have hpos : 0 < (pendingIndicesOf items).length := Nat.pos_of_ne_zero hlen
      have hWpos : 0 < min CONCURRENCY_LIMIT (pendingIndicesOf items).length :=
        Nat.lt_min.mpr ⟨by decide, hpos⟩
      have hidle : (initBatchState items ft).workers[0]? = some WorkerState.idle := by
        show (List.replicate (min CONCURRENCY_LIMIT
          (pendingIndicesOf items).length) WorkerState.idle)[0]? = some WorkerState.idle
        exact List.getElem?_replicate_of_lt hWpos
      have hsettle := settleSched_drains res (pendingIndicesOf items)
        (pendingIndicesOf_nodup items)
        (pendingIndicesOf items).length (initBatchState items ft) hidle
        (by show 0 + (pendingIndicesOf items).length = (pendingIndicesOf items).length; omega)
      rw [show (initBatchState items ft).queuePointer = 0 from rfl] at hsettle
      obtain ⟨hs1, hs2, hs3, hs4⟩ := hsettle
      have hfin := finishSched_joins (pendingIndicesOf items)
        (min CONCURRENCY_LIMIT (pendingIndicesOf items).length) 0
        (runBatchSteps (pendingIndicesOf items) (initBatchState items ft)
          (settleSched res (pendingIndicesOf items) 0 (pendingIndicesOf items).length))
        (by rw [hs1]; omega)
        (by
          rw [hs2]
          show (List.replicate _ WorkerState.idle) = _
          rw [List.replicate_zero, List.nil_append])
      obtain ⟨hf1, hf2, hf3⟩ := hfin
      have hsplit : runBatchSteps (pendingIndicesOf items) (initBatchState items ft)
          (settleSched res (pendingIndicesOf items) 0 (pendingIndicesOf items).length ++
            finishSched 0 (min CONCURRENCY_LIMIT (pendingIndicesOf items).length)) =
          runBatchSteps (pendingIndicesOf items)
            (runBatchSteps (pendingIndicesOf items) (initBatchState items ft)
              (settleSched res (pendingIndicesOf items) 0 (pendingIndicesOf items).length))
            (finishSched 0 (min CONCURRENCY_LIMIT (pendingIndicesOf items).length)) := by
        unfold runBatchSteps
        rw [List.foldl_append]
      refine ⟨settleSched res (pendingIndicesOf items) 0 (pendingIndicesOf items).length ++
        finishSched 0 (min CONCURRENCY_LIMIT (pendingIndicesOf items).length), ?_, ?_, ?_⟩
      · intro w hw
        rw [hsplit, hf1] at hw
        exact List.eq_of_mem_replicate hw
      · rw [hsplit, hf2, hs1]
      · intro pos hplt
        rw [hsplit, hf3]
        exact hs4 pos (Nat.zero_le _) hplt

/-- Witness for C4: the failure step at a concrete one-worker state, and the
completing schedule for a concrete two-item list in which the first item
fails and the second succeeds. -/
theorem failure_isolated_and_batch_completes_witness :
    (stepBatch [0]
      { items := [{ status := .processing, progress := 0, processedText := none }],
        queuePointer := 1,
        reasm := { completedTexts := [], nextIndexToAppend := 0, finalText := "" },
        workers := [WorkerState.waiting 0], claims := [0] }
      (.complete 0 .err) =
      { items := updateAt [{ status := .processing, progress := 0, processedText := none }] 0
          (fun it => { it with status := Status.error }),
        queuePointer := 1,
        reasm := publishResult
          { completedTexts := [], nextIndexToAppend := 0, finalText := "" } 0
          PLACEHOLDER_TEXT,
        workers := [WorkerState.waiting 0].set 0 WorkerState.idle, claims := [0] }) ∧
    (∃ sched : List SchedStep,
      (∀ w ∈ (runBatchSteps
          (pendingIndicesOf
            [{ status := .pending, progress := 0, processedText := none },
             { status := .pending, progress := 0, processedText := none }])
          (initBatchState
            [{ status := .pending, progress := 0, processedText := none },
             { status := .pending, progress := 0, processedText := none }] "")
          sched).workers, w = WorkerState.done) ∧
      (runBatchSteps
          (pendingIndicesOf
            [{ status := .pending, progress := 0, processedText := none },
             { status := .pending, progress := 0, processedText := none }])
          (initBatchState
            [{ status := .pending, progress := 0, processedText := none },
             { status := .pending, progress := 0, processedText := none }] "")
          sched).queuePointer =
        (pendingIndicesOf
          [{ status := .pending, progress := 0, processedText := none },
           { status := .pending, progress := 0, processedText := none }]).length ∧
      (∀ pos : Nat, pos <
          (pendingIndicesOf
            [{ status := .pending, progress := 0, processedText := none },
             { status := .pending, progress := 0, processedText := none }]).length →
        (runBatchSteps
            (pendingIndicesOf
              [{ status := .pending, progress := 0, processedText := none },
               { status := .pending, progress := 0, processedText := none }])
            (initBatchState
              [{ status := .pending, progress := 0, processedText := none },
               { status := .pending, progress := 0, processedText := none }] "")
            sched).items[(pendingIndicesOf
              [{ status := .pending, progress := 0, processedText := none },
               { status := .pending, progress := 0, processedText := none }]).getD pos 0]? =
          (([{ status := Status.pending, progress := 0, processedText := none },
             { status := Status.pending, progress := 0, processedText := none }] :
              List Item)[(pendingIndicesOf
              [{ status := .pending, progress := 0, processedText := none },
               { status := .pending, progress := 0, processedText := none }]).getD pos 0]?).map
            (settledItem
              ((fun i => if i = 0 then OCROutcome.err else OCROutcome.ok "B")
                ((pendingIndicesOf
                  [{ status := .pending, progress := 0, processedText := none },
                   { status := .pending, progress := 0, processedText := none }]).getD
                  pos 0))))) :=
  ⟨failure_isolated_and_batch_completes.1 [0]
     { items := [{ status := .processing, progress := 0, processedText := none }],
       queuePointer := 1,
       reasm := { completedTexts := [], nextIndexToAppend := 0, finalText := "" },
       workers := [WorkerState.waiting 0], claims := [0] } 0 0 rfl,
   failure_isolated_and_batch_completes.2
     [{ status := .pending, progress := 0, processedText := none },
      { status := .pending, progress := 0, processedText := none }] ""
     (fun i => if i = 0 then OCROutcome.err else OCROutcome.ok "B")⟩

/-! ### Claim C8 (amended theorem) -/

theorem stepBatch_preserves_batchInv (pend : List Nat) (hnd : pend.Nodup)
    (s : BatchState) (c : SchedStep) (h : BatchInv pend s) :
    BatchInv pend (stepBatch pend s c) := by
  obtain ⟨hA, hB, hC, hE, hF⟩ := h
  cases c with
  | claim w =>
    cases hw : s.workers[w]? with
    | none =>
      have hs : stepBatch pend s (.claim w) = s := by simp [stepBatch, hw]
      rw [hs]
      exact ⟨hA, hB, hC, hE, hF⟩
    | some ws =>
      cases ws with
      | idle =>
        by_cases hq : s.queuePointer < pend.length
        · have hwlt : w < s.workers.length := (List.getElem?_eq_some.mp hw).1
          have hs : stepBatch pend s (.claim w) =
              { s with
                queuePointer := s.queuePointer + 1,
                items := updateAt s.items (pend.getD s.queuePointer 0)
                  (fun it => { it with status := .processing }),
                workers := s.workers.set w (.waiting (pend.getD s.queuePointer 0)),
                claims := s.claims ++ [s.queuePointer] } := by
            simp [stepBatch, hw, hq]
          rw [hs]
          refine ⟨?_, ?_, ?_, ?_, ?_⟩
          · -- text/status relation
            intro i it hit
            simp only at hit
            rw [updateAt_getElem?] at hit
            cases hsi : s.items[i]? with
            | none => rw [hsi] at hit; cases hit
            | some it0 =>
              rw [hsi] at hit
              simp only [Option.map_some'] at hit
              injection hit with hit
              by_cases hi : i = pend.getD s.queuePointer 0
              · rw [if_pos hi] at hit
                subst hit
                have hnc : it0.status ≠ Status.completed := by
                  apply hB s.queuePointer (le_refl _) hq
                  rw [← hi]
                  exact hsi
                have hiff := hA i it0 hsi
                constructor
                · intro hsome
                  exact absurd (hiff.mp hsome) hnc
                · intro hc
                  cases hc
              · rw [if_neg hi] at hit
                subst hit
                exact hA i it0 hsi
          · -- unclaimed positions not completed
            intro pos hle hlt it hit
            have hle' : s.queuePointer + 1 ≤ pos := hle
            simp only at hit
            rw [updateAt_getElem?] at hit
            cases hsi : s.items[pend.getD pos 0]? with
            | none => rw [hsi] at hit; cases hit
            | some it0 =>
              rw [hsi] at hit
              simp only [Option.map_some'] at hit
              injection hit with hit
              have hne : pend.getD pos 0 ≠ pend.getD s.queuePointer 0 :=
                getD_inj_of_nodup pend hnd pos s.queuePointer hlt hq (by omega)
              rw [if_neg hne] at hit
              subst hit
              exact hB pos (by omega) hlt it0 hsi
          · -- waiting workers hold claimed positions
            intro w' i hw'
            simp only at hw'
            by_cases hww : w' = w
            · subst hww
              rw [List.getElem?_set_eq_of_lt _ hwlt] at hw'
              injection hw' with hw'
              injection hw' with hw'
              exact ⟨s.queuePointer,
                by show s.queuePointer < s.queuePointer + 1; omega, hq, hw'⟩
            · rw [List.getElem?_set_ne (fun he => hww he.symm)] at hw'
              rcases hC w' i hw' with ⟨pos, hpos, hplt, hpd⟩
              exact ⟨pos, by show pos < s.queuePointer + 1; omega, hplt, hpd⟩
          · -- distinct workers hold distinct indices
            intro w1 w2 i1 i2 hne hw1 hw2
            simp only at hw1 hw2
            by_cases h1 : w1 = w
            · subst h1
              rw [List.getElem?_set_eq_of_lt _ hwlt] at hw1
              injection hw1 with hw1
              injection hw1 with hw1
              rw [List.getElem?_set_ne hne] at hw2
              rcases hC w2 i2 hw2 with ⟨pos2, hpos2, hplt2, hpd2⟩
              rw [← hw1, ← hpd2]
              exact getD_inj_of_nodup pend hnd s.queuePointer pos2 hq hplt2 (by omega)
            · rw [List.getElem?_set_ne (fun he => h1 he.symm)] at hw1
              by_cases h2 : w2 = w
              · subst h2
                rw [List.getElem?_set_eq_of_lt _ hwlt] at hw2
                injection hw2 with hw2
                injection hw2 with hw2
                rcases hC w1 i1 hw1 with ⟨pos1, hpos1, hplt1, hpd1⟩
                rw [← hw2, ← hpd1]
                exact getD_inj_of_nodup pend hnd pos1 s.queuePointer hplt1 hq (by omega)
              · rw [List.getElem?_set_ne (fun he => h2 he.symm)] at hw2
                exact hE w1 w2 i1 i2 hne hw1 hw2
          · -- held items are processing
            intro w' i it hw' hit
            simp only at hw' hit
            rw [updateAt_getElem?] at hit
            cases hsi : s.items[i]? with
            | none => rw [hsi] at hit; cases hit
            | some it0 =>
              rw [hsi] at hit
              simp only [Option.map_some'] at hit
              injection hit with hit
              by_cases hww : w' = w
              · subst hww
                rw [List.getElem?_set_eq_of_lt _ hwlt] at hw'
                injection hw' with hw'
                injection hw' with hw'
                rw [if_pos hw'.symm] at hit
                subst hit
                rfl
              · rw [List.getElem?_set_ne (fun he => hww he.symm)] at hw'
                rcases hC w' i hw' with ⟨pos, hpos, hplt, hpd⟩
                have hne : i ≠ pend.getD s.queuePointer 0 := by
                  rw [← hpd]
                  exact getD_inj_of_nodup pend hnd pos s.queuePointer hplt hq (by omega)
                rw [if_neg hne] at hit
                subst hit
                exact hF w' i it0 hw' hsi
        · have hs : stepBatch pend s (.claim w) =
              { s with workers := s.workers.set w .done } := by
            simp [stepBatch, hw, hq]
          rw [hs]
          refine ⟨hA, hB, ?_, ?_, ?_⟩
          · intro w' i hw'
            simp only at hw'
            by_cases hww : w' = w
            · subst hww
              have hwlt : w' < s.workers.length := (List.getElem?_eq_some.mp hw).1
              rw [List.getElem?_set_eq_of_lt _ hwlt] at hw'
              injection hw' with hw'
              cases hw'
            · rw [List.getElem?_set_ne (fun he => hww he.symm)] at hw'
              exact hC w' i hw'
          · intro w1 w2 i1 i2 hne hw1 hw2
            simp only at hw1 hw2
            have hwlt : w < s.workers.length := (List.getElem?_eq_some.mp hw).1
            by_cases h1 : w1 = w
            · subst h1
              rw [List.getElem?_set_eq_of_lt _ hwlt] at hw1
              injection hw1 with hw1
              cases hw1
            · rw [List.getElem?_set_ne (fun he => h1 he.symm)] at hw1
              by_cases h2 : w2 = w
              · subst h2
                rw [List.getElem?_set_eq_of_lt _ hwlt] at hw2
                injection hw2 with hw2
                cases hw2
              · rw [List.getElem?_set_ne (fun he => h2 he.symm)] at hw2
                exact hE w1 w2 i1 i2 hne hw1 hw2
          · intro w' i it hw' hit
            simp only at hw' hit
            by_cases hww : w' = w
            · subst hww
              have hwlt : w' < s.workers.length := (List.getElem?_eq_some.mp hw).1
              rw [List.getElem?_set_eq_of_lt _ hwlt] at hw'
              injection hw' with hw'
              cases hw'
            · rw [List.getElem?_set_ne (fun he => hww he.symm)] at hw'
              exact hF w' i it hw' hit
      | waiting j =>
        have hs : stepBatch pend s (.claim w) = s := by simp [stepBatch, hw]
        rw [hs]
        exact ⟨hA, hB, hC, hE, hF⟩
      | done =>
        have hs : stepBatch pend s (.claim w) = s := by simp [stepBatch, hw]
        rw [hs]
        exact ⟨hA, hB, hC, hE, hF⟩
  | complete w r =>
    cases hw : s.workers[w]? with
    | none =>
      have hs : stepBatch pend s (.complete w r) = s := by simp [stepBatch, hw]
      rw [hs]
      exact ⟨hA, hB, hC, hE, hF⟩
    | some ws =>
      cases ws with
      | idle =>
        have hs : stepBatch pend s (.complete w r) = s := by simp [stepBatch, hw]
        rw [hs]
        exact ⟨hA, hB, hC, hE, hF⟩
      | waiting idx =>
        have hwlt : w < s.workers.length := (List.getElem?_eq_some.mp hw).1
        -- everything below is common to the success and failure branches
        have key : ∀ (t : BatchState) (g : Item → Item),
            t.items = updateAt s.items idx g →
            t.workers = s.workers.set w .idle →
            t.queuePointer = s.queuePointer →
            (∀ it0 : Item, it0.status = Status.processing → it0.processedText = none →
              ((g it0).processedText.isSome ↔ (g it0).status = Status.completed)) →
            BatchInv pend t := by
          intro t g hti htw htq hgiff
          refine ⟨?_, ?_, ?_, ?_, ?_⟩
          · intro i it hit
            rw [hti, updateAt_getElem?] at hit
            cases hsi : s.items[i]? with
            | none => rw [hsi] at hit; cases hit
            | some it0 =>
              rw [hsi] at hit
              simp only [Option.map_some'] at hit
              injection hit with hit
              by_cases hi : i = idx
              · rw [if_pos hi] at hit
                subst hit
                subst hi
                have hproc := hF w i it0 hw hsi
                have hnone : it0.processedText = none := by
                  cases hx : it0.processedText with
                  | none => rfl
                  | some v =>
                    have hc := (hA i it0 hsi).mp (by rw [hx]; rfl)
                    rw [hproc] at hc
                    cases hc
                exact hgiff it0 hproc hnone
              · rw [if_neg hi] at hit
                subst hit
                exact hA i it0 hsi
          · intro pos hle hlt it hit
            rw [htq] at hle
            rw [hti, updateAt_getElem?] at hit
            cases hsi : s.items[pend.getD pos 0]? with
            | none => rw [hsi] at hit; cases hit
            | some it0 =>
              rw [hsi] at hit
              simp only [Option.map_some'] at hit
              injection hit with hit
              rcases hC w idx hw with ⟨pos', hpos', hplt', hpd'⟩
              have hne : pend.getD pos 0 ≠ idx := by
                rw [← hpd']
                exact getD_inj_of_nodup pend hnd pos pos' hlt hplt' (by omega)
              rw [if_neg hne] at hit
              subst hit
              exact hB pos hle hlt it0 hsi
          · intro w' i hw'
            rw [htw] at hw'
            rw [htq]
            by_cases hww : w' = w
            · subst hww
              rw [List.getElem?_set_eq_of_lt _ hwlt] at hw'
              injection hw' with hw'
              cases hw'
            · rw [List.getElem?_set_ne (fun he => hww he.symm)] at hw'
              exact hC w' i hw'
          · intro w1 w2 i1 i2 hne hw1 hw2
            rw [htw] at hw1 hw2
            by_cases h1 : w1 = w
            · subst h1
              rw [List.getElem?_set_eq_of_lt _ hwlt] at hw1
              injection hw1 with hw1
              cases hw1
            · rw [List.getElem?_set_ne (fun he => h1 he.symm)] at hw1
              by_cases h2 : w2 = w
              · subst h2
                rw [List.getElem?_set_eq_of_lt _ hwlt] at hw2
                injection hw2 with hw2
                cases hw2
              · rw [List.getElem?_set_ne (fun he => h2 he.symm)] at hw2
                exact hE w1 w2 i1 i2 hne hw1 hw2
          · intro w' i it hw' hit
            rw [htw] at hw'
            rw [hti, updateAt_getElem?] at hit
            by_cases hww : w' = w
            · subst hww
              rw [List.getElem?_set_eq_of_lt _ hwlt] at hw'
              injection hw' with hw'
              cases hw'
            · rw [List.getElem?_set_ne (fun he => hww he.symm)] at hw'
              have hne : i ≠ idx := hE w' w i idx hww hw' hw
              cases hsi : s.items[i]? with
              | none => rw [hsi] at hit; cases hit
              | some it0 =>
                rw [hsi] at hit
                simp only [Option.map_some'] at hit
                injection hit with hit
                rw [if_neg hne] at hit
                subst hit
                exact hF w' i it0 hw' hsi
        cases r with
        | ok tx =>
          have hs : stepBatch pend s (.complete w (.ok tx)) =
              { s with
                items := updateAt s.items idx
                  (fun it => { it with status := .completed, processedText := some tx }),
                reasm := publishResult s.reasm idx tx,
                workers := s.workers.set w .idle } := by
            simp [stepBatch, hw]
          rw [hs]
          exact key _ _ rfl rfl rfl (fun it0 _ _ => by simp)
        | err =>
          have hs : stepBatch pend s (.complete w .err) =
              { s with
                items := updateAt s.items idx (fun it => { it with status := .error }),
                reasm := publishResult s.reasm idx PLACEHOLDER_TEXT,
                workers := s.workers.set w .idle } := by
            simp [stepBatch, hw]
          rw [hs]
          refine key _ _ rfl rfl rfl ?_
          intro it0 _ hnone
          show it0.processedText.isSome ↔ Status.error = Status.completed
          rw [hnone]
          simp
      | done =>
        have hs : stepBatch pend s (.complete w r) = s := by simp [stepBatch, hw]
        rw [hs]
        exact ⟨hA, hB, hC, hE, hF⟩
  | progressUpdate w p =>
    cases hw : s.workers[w]? with
    | none =>
      have hs : stepBatch pend s (.progressUpdate w p) = s := by simp [stepBatch, hw]
      rw [hs]
      exact ⟨hA, hB, hC, hE, hF⟩
    | some ws =>
      cases ws with
      | idle =>
        have hs : stepBatch pend s (.progressUpdate w p) = s := by simp [stepBatch, hw]
        rw [hs]
        exact ⟨hA, hB, hC, hE, hF⟩
      | waiting idx =>
        have hs : stepBatch pend s (.progressUpdate w p) =
            { s with items := updateAt s.items idx (fun it => { it with progress := p }) } := by
          simp [stepBatch, hw]
        rw [hs]
        refine ⟨?_, ?_, hC, hE, ?_⟩
        · intro i it hit
          simp only at hit
          rw [updateAt_getElem?] at hit
          cases hsi : s.items[i]? with
          | none => rw [hsi] at hit; cases hit
          | some it0 =>
            rw [hsi] at hit
            simp only [Option.map_some'] at hit
            injection hit with hit
            by_cases hi : i = idx
            · rw [if_pos hi] at hit
              subst hit
              exact hA i it0 hsi
            · rw [if_neg hi] at hit
              subst hit
              exact hA i it0 hsi
        · intro pos hle hlt it hit
          simp only at hit hle
          rw [updateAt_getElem?] at hit
          cases hsi : s.items[pend.getD pos 0]? with
          | none => rw [hsi] at hit; cases hit
          | some it0 =>
            rw [hsi] at hit
            simp only [Option.map_some'] at hit
            injection hit with hit
            have hstat : it.status = it0.status := by
              rw [← hit]
              split <;> rfl
            rw [hstat]
            exact hB pos hle hlt it0 hsi
        · intro w' i it hw' hit
          simp only at hw' hit
          rw [updateAt_getElem?] at hit
          cases hsi : s.items[i]? with
          | none => rw [hsi] at hit; cases hit
          | some it0 =>
            rw [hsi] at hit
            simp only [Option.map_some'] at hit
            injection hit with hit
            have hstat : it.status = it0.status := by
              rw [← hit]
              split <;> rfl
            rw [hstat]
            exact hF w' i it0 hw' hsi
      | done =>
        have hs : stepBatch pend s (.progressUpdate w p) = s := by simp [stepBatch, hw]
        rw [hs]
        exact ⟨hA, hB, hC, hE, hF⟩

/-- C8 (amended): throughout every batch run starting from an item list in
which a result text is present exactly on `completed` items (true of freshly
ingested lists and preserved across runs), an item's result text is present
iff its status is `completed`.  In particular an `error` item never holds a
result text — the placeholder is published only to the reassembler, not
stored on the item — so the original claim's "present iff status ∈
{completed, error}, with the placeholder on error" is false: see the
counterexample. -/
theorem result_text_present_iff_completed (items : List Item) (ft : String)
    (sched : List SchedStep) (h : ItemTextInv items) :
    ItemTextInv
      (runBatchSteps (pendingIndicesOf items) (initBatchState items ft) sched).items := by
  have hnd := pendingIndicesOf_nodup items
  have hnowait : ∀ (w i : Nat),
      (initBatchState items ft).workers[w]? ≠ some (WorkerState.waiting i) := by
    intro w i hw
    rw [show (initBatchState items ft).workers =
        List.replicate (min CONCURRENCY_LIMIT (pendingIndicesOf items).length)
          WorkerState.idle from rfl,
      List.getElem?_replicate] at hw
    by_cases hwl : w < min CONCURRENCY_LIMIT (pendingIndicesOf items).length
    · rw [if_pos hwl] at hw
      injection hw with hw
      cases hw
    · rw [if_neg hwl] at hw
      cases hw
  have hinit : BatchInv (pendingIndicesOf items) (initBatchState items ft) := by
    refine ⟨h, ?_, ?_, ?_, ?_⟩
    · intro pos hle hlt it hit
      have hmem := getD_mem (pendingIndicesOf items) pos hlt
      have hprop := (mem_pendingIndicesOf items _).mp hmem
      have hit' : items[(pendingIndicesOf items).getD pos 0]? = some it := hit
      have hgd : items.getD ((pendingIndicesOf items).getD pos 0) defaultItem = it := by
        have hx : items.getD ((pendingIndicesOf items).getD pos 0) defaultItem =
            (items[(pendingIndicesOf items).getD pos 0]?).getD defaultItem := by
          simp [List.getD_eq_getElem?_getD]
        rw [hx, hit']
        rfl
      rw [← hgd]
      exact hprop.2
    · intro w i hw
      exact absurd hw (hnowait w i)
    · intro w1 w2 i1 i2 hne hw1 hw2
      exact absurd hw1 (hnowait w1 i1)
    · intro w i it hw hit
      exact absurd hw (hnowait w i)
  exact (runBatchSteps_invariant (pendingIndicesOf items) (BatchInv (pendingIndicesOf items))
    (stepBatch_preserves_batchInv (pendingIndicesOf items) hnd) sched
    (initBatchState items ft) hinit).1

/-- Witness for C8: a fresh one-item run completing successfully keeps the
text/status relation. -/
theorem result_text_present_iff_completed_witness :
    ItemTextInv
      (runBatchSteps
        (pendingIndicesOf [{ status := .pending, progress := 0, processedText := none }])
        (initBatchState [{ status := .pending, progress := 0, processedText := none }] "")
        [.claim 0, .complete 0 (.ok "A")]).items :=
  result_text_present_iff_completed
    [{ status := .pending, progress := 0, processedText := none }] ""
    [.claim 0, .complete 0 (.ok "A")]
    (by
      intro i it hit
      cases i with
      | zero =>
        injection hit with hit
        subst hit
        simp
      | succ n => exact Option.noConfusion hit)

end ScribbleToDoc
